import Mathlib

/-!
Verification of the Random-Arena-Games experiment drivers.

This file gives a shallow embedding, in Lean 4, of the Python code under
`src/experiments/` — the feasibility pre-checks (nonnegative-energy lasso,
negative-energy path, priority-0 BFS region, priority-0 / parity lassos),
the assignment enumerator and samplers, the solver-output parsers, the
player-replacement step, and the batch drivers — together with theorems
settling the specification claims about them.

Modelling conventions, used throughout:
* Python dicts are embedded as association lists with Python update
  semantics (`dinsert` replaces in place, `adjApp` mirrors
  `setdefault(k, []).append(v)`); lookup is `alookup`.
* Python's explicit-stack `while` loops are embedded as fuel-indexed
  recursive functions returning `Option`; `none` means the fuel ran out.
  Each top-level search supplies a fuel computed from the graph, and the
  termination theorems prove that this fuel is always sufficient, so the
  embedded functions agree with the (terminating runs of the) Python loops.
* External-process solver invocations are abstracted as an oracle
  parameter mapping an assignment to either its stdout (as a list of
  lines) or a process error; wall-clock timing is omitted.
* Solver outputs and error texts are modelled as lists of lines
  (Python `str.splitlines`).
-/

/-! ## Association lists with Python dict semantics -/

/-- Lookup in an association list: first binding wins.  Embeds Python
dict lookup for dicts built with `dinsert`/`adjApp` (whose keys stay
unique, so first-match and last-match coincide). -/
def alookup {α β : Type} [DecidableEq α] : List (α × β) → α → Option β
  | [], _ => none
  | (k, v) :: rest, a => if a = k then some v else alookup rest a

/-- Python `d[k] = v`: replace the binding in place if the key exists,
otherwise append it (insertion order preserved). -/
def dinsert {α β : Type} [DecidableEq α] : List (α × β) → α → β → List (α × β)
  | [], k, v => [(k, v)]
  | (k', v') :: rest, k, v =>
    if k' = k then (k', v) :: rest else (k', v') :: dinsert rest k v

/-- Python `d.setdefault(k, []).append(t)`: append `t` to the list bound
to `k`, creating the binding at the end of the dict if absent. -/
def adjApp {α γ : Type} [DecidableEq α] : List (α × List γ) → α → γ → List (α × List γ)
  | [], s, t => [(s, [t])]
  | (k, vs) :: rest, s, t =>
    if k = s then (k, vs ++ [t]) :: rest else (k, vs) :: adjApp rest s t

/-- Python `edges.get(v, [])`. -/
def adjGet {α γ : Type} [DecidableEq α] (d : List (α × List γ)) (a : α) : List γ :=
  (alookup d a).getD []

/-- Python `weights.get((u, v), 0)` for integer edge effects. -/
def wGet (w : List ((Nat × Nat) × Int)) (p : Nat × Nat) : Int :=
  (alookup w p).getD 0

theorem alookup_eq_none_of_not_mem_keys {α β : Type} [DecidableEq α]
    (l : List (α × β)) (a : α) (h : a ∉ l.map Prod.fst) : alookup l a = none := by
  induction l with
  | nil => rfl
  | cons p rest ih =>
    simp only [List.map_cons, List.mem_cons] at h
    push_neg at h
    simp only [alookup, if_neg h.1]
    exact ih h.2

theorem mem_keys_of_alookup_eq_some {α β : Type} [DecidableEq α]
    {l : List (α × β)} {a : α} {b : β} (h : alookup l a = some b) :
    a ∈ l.map Prod.fst := by
  induction l with
  | nil => simp [alookup] at h
  | cons p rest ih =>
    simp only [alookup] at h
    by_cases hk : a = p.1
    · simp [hk]
    · simp only [if_neg hk] at h
      simp [ih h]

/-! ## Assignment enumerator (exhaustive mode)

Embeds `itertools.product("01", repeat=n)` followed by `"".join(bits)`,
as used in `compute-exact-probability-energy.py` (line 161),
`compute-exact-probability-reach.py` (line 201) and
`compute-parallel-energy.py` (line 171).  A bit string is a `List Bool`
with `false` for the character `'0'` and `true` for `'1'`; `product`
varies the last position fastest, i.e. the first position slowest. -/

def allBitStrings : Nat → List (List Bool)
  | 0 => [[]]
  | n + 1 =>
    (allBitStrings n).map (fun l => false :: l) ++
      (allBitStrings n).map (fun l => true :: l)

theorem length_allBitStrings (n : Nat) : (allBitStrings n).length = 2 ^ n := by
  induction n with
  | zero => rfl
  | succ n ih =>
    simp only [allBitStrings, List.length_append, List.length_map, ih]
    ring

theorem mem_allBitStrings_iff (n : Nat) (l : List Bool) :
    l ∈ allBitStrings n ↔ l.length = n := by
  induction n generalizing l with
  | zero => cases l <;> simp [allBitStrings]
  | succ n ih =>
    cases l with
    | nil => simp [allBitStrings]
    | cons b t =>
      simp only [allBitStrings, List.mem_append, List.mem_map, List.length_cons,
        Nat.succ_inj]
      constructor
      · rintro (⟨x, hx, he⟩ | ⟨x, hx, he⟩)
        · injection he with h1 h2
          subst h2
          exact (ih x).mp hx
        · injection he with h1 h2
          subst h2
          exact (ih x).mp hx
      · intro h
        cases b
        · exact Or.inl ⟨t, (ih t).mpr h, rfl⟩
        · exact Or.inr ⟨t, (ih t).mpr h, rfl⟩

theorem nodup_allBitStrings (n : Nat) : (allBitStrings n).Nodup := by
  induction n with
  | zero => simp [allBitStrings]
  | succ n ih =>
    simp only [allBitStrings]
    refine List.Nodup.append ?_ ?_ ?_
    · exact ih.map (fun a b h => by injection h)
    · exact ih.map (fun a b h => by injection h)
    · intro x hx hy
      rcases List.mem_map.mp hx with ⟨a, _, rfl⟩
      rcases List.mem_map.mp hy with ⟨b, _, hb⟩
      injection hb with h1 h2
      exact absurd h1 (by decide)

/-- Strict lexicographic order on bit strings, `false < true` mirroring
`'0' < '1'` in Python string comparison. -/
def bitLexLt (a b : List Bool) : Prop := List.Lex (· < ·) a b

theorem headq_map {α β : Type} (f : α → β) (l : List α) :
    (l.map f).head? = l.head?.map f := by
  cases l <;> rfl

theorem getLastq_map {α β : Type} (f : α → β) (l : List α) :
    (l.map f).getLast? = l.getLast?.map f := by
  induction l with
  | nil => rfl
  | cons a t ih =>
    cases t with
    | nil => rfl
    | cons b t2 =>
      simp only [List.map_cons] at ih ⊢
      rw [List.getLast?_cons_cons, List.getLast?_cons_cons, ih]

theorem allBitStrings_ne_nil (n : Nat) : allBitStrings n ≠ [] := by
  intro h
  have h1 := length_allBitStrings n
  rw [h] at h1
  have h2 : 0 < 2 ^ n := pow_pos (by norm_num) n
  simp only [List.length_nil] at h1
  exact absurd h1.symm (Nat.ne_of_gt h2)

theorem headq_allBitStrings (n : Nat) :
    (allBitStrings n).head? = some (List.replicate n false) := by
  induction n with
  | zero => rfl
  | succ n ih =>
    have hne : (allBitStrings n).map (fun l => false :: l) ≠ [] := by
      simp [allBitStrings_ne_nil n]
    simp only [allBitStrings, List.replicate_succ]
    rw [List.head?_append_of_ne_nil _ hne, headq_map, ih]
    rfl

theorem getLastq_allBitStrings (n : Nat) :
    (allBitStrings n).getLast? = some (List.replicate n true) := by
  induction n with
  | zero => rfl
  | succ n ih =>
    have hne : (allBitStrings n).map (fun l => true :: l) ≠ [] := by
      simp [allBitStrings_ne_nil n]
    simp only [allBitStrings, List.replicate_succ]
    rw [List.getLast?_append_of_ne_nil _ hne, getLastq_map, ih]
    rfl

theorem chain_allBitStrings (n : Nat) :
    List.Chain' bitLexLt (allBitStrings n) := by
  induction n with
  | zero => simp [allBitStrings]
  | succ n ih =>
    simp only [allBitStrings]
    rw [List.chain'_append]
    refine ⟨?_, ?_, ?_⟩
    · rw [List.chain'_map]
      exact ih.imp fun a b h => List.Lex.cons h
    · rw [List.chain'_map]
      exact ih.imp fun a b h => List.Lex.cons h
    · intro x hx y hy
      rw [getLastq_map] at hx
      rw [headq_map] at hy
      rcases Option.map_eq_some'.mp hx with ⟨a, _, rfl⟩
      rcases Option.map_eq_some'.mp hy with ⟨b, _, rfl⟩
      exact List.Lex.rel (by decide)

/-- C4: for every vertex count `n`, the exhaustive driver enumerates
exactly `2 ^ n` assignment bit strings, each distinct and visited exactly
once (the enumeration is duplicate-free and complete over length-`n`
strings), in lexicographic order from `"0" * n` through `"1" * n`. -/
theorem claim_C4_exhaustive_enumeration (n : Nat) :
    (allBitStrings n).length = 2 ^ n ∧
    (allBitStrings n).Nodup ∧
    (∀ l : List Bool, l ∈ allBitStrings n ↔ l.length = n) ∧
    List.Chain' bitLexLt (allBitStrings n) ∧
    (allBitStrings n).head? = some (List.replicate n false) ∧
    (allBitStrings n).getLast? = some (List.replicate n true) :=
  ⟨length_allBitStrings n, nodup_allBitStrings n, fun l => mem_allBitStrings_iff n l,
    chain_allBitStrings n, headq_allBitStrings n, getLastq_allBitStrings n⟩

/-! ## Energy-game feasibility checks

Embeds `find_nonnegative_lasso` and `exists_negative_energy_path`, which
appear verbatim in `compute-exact-probability-energy.py` (lines 41-98)
and `compute-parallel-energy.py` (lines 47-100).  The explicit Python
stack (`list.append` / `list.pop`) is a Lean list whose head is the top
of the stack, so pushing the successor list left-to-right puts the last
successor on top, exactly as in Python. -/

/-- The `for i in range(len(cycle) - 1)` loop of `find_nonnegative_lasso`:
walks the cycle re-summing edge effects, returning `none` as soon as the
running sum dips below zero (Python `valid = False; break`) and otherwise
the total cycle weight (which equals the final running sum). -/
def cycleEnergy (weights : List ((Nat × Nat) × Int)) : List Nat → Int → Option Int
  | [], e => some e
  | [_], e => some e
  | c1 :: c2 :: rest, e =>
    let w := wGet weights (c1, c2)
    if e + w < 0 then none else cycleEnergy weights (c2 :: rest) (e + w)

/-- One `while stack:` iteration body of `find_nonnegative_lasso`, as a
fuel-indexed loop.  A stack frame `(current, path, energy)` stores the
path including `current` as its last element, as in the Python code.
`none` means the fuel ran out before the loop finished. -/
def energyLassoAux (edges : List (Nat × List Nat)) (weights : List ((Nat × Nat) × Int))
    (limit : Int) :
    Nat → List (Nat × List Nat × Int) → Finset (Nat × Int) → Option Bool
  | _, [], _ => some false
  | 0, _ :: _, _ => none
  | fuel + 1, (current, path, energy) :: stack, visited =>
    if energy < 0 then energyLassoAux edges weights limit fuel stack visited
    else if current ∈ path.dropLast then
      match cycleEnergy weights (path.drop (path.indexOf current)) 0 with
      | some total =>
        if 0 ≤ total then some true
        else energyLassoAux edges weights limit fuel stack visited
      | none => energyLassoAux edges weights limit fuel stack visited
    else
      let sv := (adjGet edges current).foldl
        (fun (sv : List (Nat × List Nat × Int) × Finset (Nat × Int)) nb =>
          let ne := energy + wGet weights (current, nb)
          if 0 ≤ ne ∧ (nb, ne) ∉ sv.2 ∧ ne ≤ limit then
            ((nb, path ++ [nb], ne) :: sv.1, insert (nb, ne) sv.2)
          else sv)
        (stack, visited)
      energyLassoAux edges weights limit fuel sv.1 sv.2

/-- All edge targets of an adjacency dict; every vertex any of the
searches ever pushes is in this set (or is the start vertex). -/
def targetsOf {α : Type} [DecidableEq α] (edges : List (α × List α)) : Finset α :=
  edges.foldr (fun p acc => p.2.toFinset ∪ acc) ∅

/-- Fuel sufficient for `energyLassoAux`: one iteration for the initial
frame plus one per dedupe-able `(vertex, energy)` state. -/
def energyLassoFuel (edges : List (Nat × List Nat)) (limit : Int) : Nat :=
  1 + (targetsOf edges).card * (limit + 1).toNat

/-- Embeds `find_nonnegative_lasso(edges, weights, start, energy_limit)`
(`compute-exact-probability-energy.py` lines 41-75 and
`compute-parallel-energy.py` lines 47-78).  The fuel is proved sufficient
in `energyLassoAux_ne_none`, so the `getD` default is never taken. -/
def find_nonnegative_lasso (edges : List (Nat × List Nat))
    (weights : List ((Nat × Nat) × Int)) (start : Nat) (limit : Int) : Bool :=
  (energyLassoAux edges weights limit (energyLassoFuel edges limit)
    [(start, [start], 0)] ∅).getD false

/-- The `for neighbor in edges.get(current, [])` loop of
`exists_negative_energy_path`: `none` signals that a single-step
transition drove the energy negative (Python `return True`); otherwise
the updated stack. -/
def negPush (weights : List ((Nat × Nat) × Int)) (limit : Int) (current : Nat) (energy : Int) :
    List Nat → List (Nat × Int) → Option (List (Nat × Int))
  | [], st => some st
  | nb :: rest, st =>
    let ne := energy + wGet weights (current, nb)
    if ne < 0 then none
    else if ne ≤ limit then negPush weights limit current energy rest ((nb, ne) :: st)
    else negPush weights limit current energy rest st

/-- The `while stack:` loop of `exists_negative_energy_path` as a
fuel-indexed loop (dedupe on pop by `(vertex, energy)`). -/
def negPathAux (edges : List (Nat × List Nat)) (weights : List ((Nat × Nat) × Int))
    (limit : Int) :
    Nat → List (Nat × Int) → Finset (Nat × Int) → Option Bool
  | _, [], _ => some false
  | 0, _ :: _, _ => none
  | fuel + 1, (c, e) :: stack, vis =>
    if (c, e) ∈ vis then negPathAux edges weights limit fuel stack vis
    else
      match negPush weights limit c e (adjGet edges c) stack with
      | none => some true
      | some stack2 => negPathAux edges weights limit fuel stack2 (insert (c, e) vis)

/-- Total adjacency size `sum(len(edges[v]))`; bounds how much a stack
or queue can grow in one iteration of any of the searches. -/
def adjSize {α : Type} [DecidableEq α] (edges : List (α × List α)) : Nat :=
  (edges.map fun p => p.2.length).sum

/-- Fuel sufficient for `negPathAux` (proved in `negPathAux_ne_none`). -/
def negPathFuel (edges : List (Nat × List Nat)) (limit : Int) : Nat :=
  1 + (adjSize edges + 1) * (1 + (targetsOf edges).card * (limit + 1).toNat)

/-- Embeds `exists_negative_energy_path(edges, weights, start, energy_limit)`
(`compute-exact-probability-energy.py` lines 80-98 and
`compute-parallel-energy.py` lines 84-100). -/
def exists_negative_energy_path (edges : List (Nat × List Nat))
    (weights : List ((Nat × Nat) × Int)) (start : Nat) (limit : Int) : Bool :=
  (negPathAux edges weights limit (negPathFuel edges limit) [(start, 0)] ∅).getD false

/-- The two-vertex energy game of §8 of the spec: `v0 → v1` with effect
`-1` and `v1 → v0` with effect `+2`. -/
def twoCycleEdges : List (Nat × List Nat) := [(0, [1]), (1, [0])]

/-- Edge effects of the two-vertex game. -/
def twoCycleWeights : List ((Nat × Nat) × Int) := [((0, 1), -1), ((1, 0), 2)]

/-- C1 counterexample: on the two-vertex game the claim asserts that both
checks return true, but `find_nonnegative_lasso` returns false — the
push filter `new_energy >= 0` abandons the prefix `v0 → v1` (energy `-1`)
before any cycle can be reached. -/
theorem claim_C1_counterexample :
    ¬(find_nonnegative_lasso twoCycleEdges twoCycleWeights 0 1000 = true ∧
      exists_negative_energy_path twoCycleEdges twoCycleWeights 0 1000 = true) := by
  decide

/-- C1 amended: on the two-vertex energy game with `v0 → v1` of effect
`-1` and `v1 → v0` of effect `+2`, the nonnegative-energy lasso check
(start `0`, default `energy_limit = 1000`) returns `false` (every path
out of `v0` immediately drives the cumulative energy negative and is
pruned), while the negative-energy-path check returns `true`. -/
theorem claim_C1_amended :
    find_nonnegative_lasso twoCycleEdges twoCycleWeights 0 1000 = false ∧
    exists_negative_energy_path twoCycleEdges twoCycleWeights 0 1000 = true := by
  decide

/-! ## Termination of the energy searches

Each iteration of `energyLassoAux` pops one frame, and every pushed frame
records a fresh `(vertex, energy)` state (inserted into `visited` at push
time) with vertex a target of some edge and energy in `[0, limit]`; so
`stack.length + |allowed \ visited|` strictly decreases, and
`energyLassoFuel` iterations suffice.  `negPathAux` dedupes on pop
instead, so the stack may briefly hold duplicates, but each non-skipped
iteration retires one state of `allowed` for good while growing the stack
by at most `adjSize`, giving the `negPathFuel` bound. -/

theorem mem_of_alookup_eq_some {α β : Type} [DecidableEq α]
    {l : List (α × β)} {a : α} {b : β} (h : alookup l a = some b) : (a, b) ∈ l := by
  induction l with
  | nil => simp [alookup] at h
  | cons p rest ih =>
    simp only [alookup] at h
    by_cases hk : a = p.1
    · rw [if_pos hk] at h
      injection h with h2
      subst h2
      subst hk
      rw [← Prod.mk.eta (p := p)]
      exact List.mem_cons_self _ _
    · rw [if_neg hk] at h
      exact List.mem_cons_of_mem _ (ih h)

theorem mem_targetsOf {α : Type} [DecidableEq α]
    {edges : List (α × List α)} {p : α × List α}
    (hp : p ∈ edges) {x : α} (hx : x ∈ p.2) : x ∈ targetsOf edges := by
  induction edges with
  | nil => cases hp
  | cons q rest ih =>
    unfold targetsOf
    simp only [List.foldr_cons]
    rcases List.mem_cons.mp hp with h | h
    · subst h
      exact Finset.mem_union_left _ (List.mem_toFinset.mpr hx)
    · exact Finset.mem_union_right _ (ih h)

theorem mem_targetsOf_of_mem_adjGet {α : Type} [DecidableEq α]
    {edges : List (α × List α)} {c x : α}
    (hx : x ∈ adjGet edges c) : x ∈ targetsOf edges := by
  unfold adjGet at hx
  cases hl : alookup edges c with
  | none => rw [hl] at hx; cases hx
  | some l =>
    rw [hl] at hx
    exact mem_targetsOf (mem_of_alookup_eq_some hl) hx

theorem adjGet_length_le_adjSize {α : Type} [DecidableEq α]
    (edges : List (α × List α)) (c : α) :
    (adjGet edges c).length ≤ adjSize edges := by
  unfold adjGet adjSize
  induction edges with
  | nil => simp [alookup]
  | cons p rest ih =>
    simp only [alookup, List.map_cons, List.sum_cons]
    by_cases hk : c = p.1
    · rw [if_pos hk]
      simp
    · rw [if_neg hk]
      omega

/-- The push fold of `energyLassoAux` preserves
`stack.length + |allowed \ visited|`: every accepted push lengthens the
stack by one and retires exactly one state of `allowed`. -/
theorem energyLasso_pushFold_measure (edges : List (Nat × List Nat))
    (weights : List ((Nat × Nat) × Int)) (limit : Int) (current : Nat)
    (path : List Nat) (energy : Int) :
    ∀ (ns : List Nat), (∀ x ∈ ns, x ∈ targetsOf edges) →
    ∀ (st : List (Nat × List Nat × Int)) (vis : Finset (Nat × Int)),
    (ns.foldl
      (fun (sv : List (Nat × List Nat × Int) × Finset (Nat × Int)) nb =>
        let ne := energy + wGet weights (current, nb)
        if 0 ≤ ne ∧ (nb, ne) ∉ sv.2 ∧ ne ≤ limit then
          ((nb, path ++ [nb], ne) :: sv.1, insert (nb, ne) sv.2)
        else sv)
      (st, vis)).1.length +
      (((targetsOf edges ×ˢ Finset.Icc 0 limit) \ (ns.foldl
      (fun (sv : List (Nat × List Nat × Int) × Finset (Nat × Int)) nb =>
        let ne := energy + wGet weights (current, nb)
        if 0 ≤ ne ∧ (nb, ne) ∉ sv.2 ∧ ne ≤ limit then
          ((nb, path ++ [nb], ne) :: sv.1, insert (nb, ne) sv.2)
        else sv)
      (st, vis)).2).card) =
      st.length + (((targetsOf edges ×ˢ Finset.Icc 0 limit) \ vis).card) := by
  intro ns
  induction ns with
  | nil => intro _ st vis; rfl
  | cons nb rest ih =>
    intro hmem st vis
    simp only [List.foldl_cons]
    by_cases hc : 0 ≤ energy + wGet weights (current, nb) ∧
        (nb, energy + wGet weights (current, nb)) ∉ vis ∧
        energy + wGet weights (current, nb) ≤ limit
    · rw [if_pos hc]
      rw [ih (fun x hx => hmem x (List.mem_cons_of_mem _ hx))]
      have hmemA : (nb, energy + wGet weights (current, nb)) ∈
          (targetsOf edges ×ˢ Finset.Icc 0 limit) \ vis := by
        rw [Finset.mem_sdiff]
        refine ⟨Finset.mem_product.mpr ⟨hmem nb (List.mem_cons_self nb rest), ?_⟩, hc.2.1⟩
        rw [Finset.mem_Icc]
        exact ⟨hc.1, hc.2.2⟩
      have hcard : (((targetsOf edges ×ˢ Finset.Icc 0 limit) \
          insert (nb, energy + wGet weights (current, nb)) vis).card) =
          (((targetsOf edges ×ˢ Finset.Icc 0 limit) \ vis).card) - 1 := by
        rw [Finset.sdiff_insert, Finset.card_erase_of_mem hmemA]
      have hpos : 0 < ((targetsOf edges ×ˢ Finset.Icc 0 limit) \ vis).card :=
        Finset.card_pos.mpr ⟨_, hmemA⟩
      simp only [List.length_cons, hcard]
      omega
    · rw [if_neg hc]
      exact ih (fun x hx => hmem x (List.mem_cons_of_mem _ hx)) st vis

theorem energyLassoAux_ne_none (edges : List (Nat × List Nat))
    (weights : List ((Nat × Nat) × Int)) (limit : Int) :
    ∀ (fuel : Nat) (stack : List (Nat × List Nat × Int)) (vis : Finset (Nat × Int)),
    stack.length + (((targetsOf edges ×ˢ Finset.Icc 0 limit) \ vis).card) ≤ fuel →
    energyLassoAux edges weights limit fuel stack vis ≠ none := by
  intro fuel
  induction fuel with
  | zero =>
    intro stack vis h
    cases stack with
    | nil => simp [energyLassoAux]
    | cons a t => simp only [List.length_cons] at h; omega
  | succ fuel ih =>
    intro stack vis h
    cases stack with
    | nil => simp [energyLassoAux]
    | cons fr st =>
      obtain ⟨current, path, energy⟩ := fr
      simp only [energyLassoAux]
      by_cases h1 : energy < 0
      · rw [if_pos h1]
        apply ih
        simp only [List.length_cons] at h
        omega
      · rw [if_neg h1]
        by_cases h2 : current ∈ path.dropLast
        · rw [if_pos h2]
          cases hce : cycleEnergy weights (path.drop (path.indexOf current)) 0 with
          | none =>
            apply ih
            simp only [List.length_cons] at h
            omega
          | some total =>
            by_cases h3 : 0 ≤ total
            · simp [h3]
            · simp only [if_neg h3]
              apply ih
              simp only [List.length_cons] at h
              omega
        · rw [if_neg h2]
          apply ih
          rw [energyLasso_pushFold_measure edges weights limit current path energy
            (adjGet edges current) (fun x hx => mem_targetsOf_of_mem_adjGet hx) st vis]
          simp only [List.length_cons] at h
          omega

/-- The fuel `energyLassoFuel` always suffices: the embedded
`find_nonnegative_lasso` loop runs to completion on every finite graph. -/
theorem find_nonnegative_lasso_terminates (edges : List (Nat × List Nat))
    (weights : List ((Nat × Nat) × Int)) (start : Nat) (limit : Int) :
    energyLassoAux edges weights limit (energyLassoFuel edges limit)
      [(start, [start], 0)] ∅ ≠ none := by
  apply energyLassoAux_ne_none
  rw [Finset.sdiff_empty, Finset.card_product, Int.card_Icc, sub_zero]
  simp only [energyLassoFuel, List.length_cons, List.length_nil]
  omega

theorem negPush_spec (weights : List ((Nat × Nat) × Int)) (limit : Int)
    (current : Nat) (energy : Int) :
    ∀ (ns : List Nat) (st st2 : List (Nat × Int)),
    negPush weights limit current energy ns st = some st2 →
    st2.length ≤ st.length + ns.length ∧
    ∀ x ∈ st2, x ∈ st ∨ (x.1 ∈ ns ∧ 0 ≤ x.2 ∧ x.2 ≤ limit) := by
  intro ns
  induction ns with
  | nil =>
    intro st st2 h
    simp only [negPush] at h
    cases h
    exact ⟨by simp, fun x hx => Or.inl hx⟩
  | cons nb rest ih =>
    intro st st2 h
    simp only [negPush] at h
    by_cases h1 : energy + wGet weights (current, nb) < 0
    · rw [if_pos h1] at h
      cases h
    · rw [if_neg h1] at h
      by_cases h2 : energy + wGet weights (current, nb) ≤ limit
      · rw [if_pos h2] at h
        obtain ⟨hlen, hmem⟩ := ih _ _ h
        refine ⟨by simp only [List.length_cons] at hlen ⊢; omega, fun x hx => ?_⟩
        rcases hmem x hx with hx2 | hx2
        · rcases List.mem_cons.mp hx2 with rfl | hx3
          · exact Or.inr ⟨List.mem_cons_self _ _, le_of_not_lt h1, h2⟩
          · exact Or.inl hx3
        · exact Or.inr ⟨List.mem_cons_of_mem _ hx2.1, hx2.2⟩
      · rw [if_neg h2] at h
        obtain ⟨hlen, hmem⟩ := ih _ _ h
        refine ⟨by simp only [List.length_cons]; omega, fun x hx => ?_⟩
        rcases hmem x hx with hx2 | hx2
        · exact Or.inl hx2
        · exact Or.inr ⟨List.mem_cons_of_mem _ hx2.1, hx2.2⟩

theorem negPathAux_ne_none (edges : List (Nat × List Nat))
    (weights : List ((Nat × Nat) × Int)) (limit : Int) (S : Finset (Nat × Int))
    (hS : (targetsOf edges ×ˢ Finset.Icc 0 limit) ⊆ S) :
    ∀ (fuel : Nat) (stack : List (Nat × Int)) (vis : Finset (Nat × Int)),
    (∀ x ∈ stack, x ∈ S) →
    stack.length + (adjSize edges + 1) * ((S \ vis).card) ≤ fuel →
    negPathAux edges weights limit fuel stack vis ≠ none := by
  intro fuel
  induction fuel with
  | zero =>
    intro stack vis _ h
    cases stack with
    | nil => simp [negPathAux]
    | cons a t => simp only [List.length_cons] at h; omega
  | succ fuel ih =>
    intro stack vis hstack h
    cases stack with
    | nil => simp [negPathAux]
    | cons fr st =>
      obtain ⟨c, e⟩ := fr
      simp only [negPathAux]
      by_cases h1 : (c, e) ∈ vis
      · rw [if_pos h1]
        apply ih _ _ (fun x hx => hstack x (List.mem_cons_of_mem _ hx))
        simp only [List.length_cons] at h
        omega
      · rw [if_neg h1]
        cases hp : negPush weights limit c e (adjGet edges c) st with
        | none => simp
        | some st2 =>
          obtain ⟨hlen, hmem⟩ := negPush_spec weights limit c e _ _ _ hp
          apply ih
          · intro x hx
            rcases hmem x hx with hx2 | hx2
            · exact hstack x (List.mem_cons_of_mem _ hx2)
            · refine hS (Finset.mem_product.mpr ⟨mem_targetsOf_of_mem_adjGet hx2.1, ?_⟩)
              rw [Finset.mem_Icc]
              exact ⟨hx2.2.1, hx2.2.2⟩
          · have hin : (c, e) ∈ S \ vis :=
              Finset.mem_sdiff.mpr ⟨hstack _ (List.mem_cons_self _ _), h1⟩
            have hcard : ((S \ insert (c, e) vis).card) = ((S \ vis).card) - 1 := by
              rw [Finset.sdiff_insert, Finset.card_erase_of_mem hin]
            have hpos : 0 < ((S \ vis).card) := Finset.card_pos.mpr ⟨_, hin⟩
            have hd : (adjGet edges c).length ≤ adjSize edges :=
              adjGet_length_le_adjSize edges c
            simp only [List.length_cons] at h
            rw [hcard]
            have hexp : (adjSize edges + 1) * (((S \ vis).card) - 1) + (adjSize edges + 1) =
                (adjSize edges + 1) * ((S \ vis).card) := by
              have hk : ((S \ vis).card) - 1 + 1 = (S \ vis).card := Nat.succ_pred_eq_of_pos hpos
              calc (adjSize edges + 1) * (((S \ vis).card) - 1) + (adjSize edges + 1) =
                  (adjSize edges + 1) * ((((S \ vis).card) - 1) + 1) := (Nat.mul_succ _ _).symm
                _ = (adjSize edges + 1) * ((S \ vis).card) := by rw [hk]
            omega

/-- The fuel `negPathFuel` always suffices for the embedded
`exists_negative_energy_path` loop. -/
theorem exists_negative_energy_path_terminates (edges : List (Nat × List Nat))
    (weights : List ((Nat × Nat) × Int)) (start : Nat) (limit : Int) :
    negPathAux edges weights limit (negPathFuel edges limit) [(start, 0)] ∅ ≠ none := by
  apply negPathAux_ne_none edges weights limit
      (insert (start, 0) (targetsOf edges ×ˢ Finset.Icc 0 limit))
      (Finset.subset_insert _ _)
  · intro x hx
    rcases List.mem_cons.mp hx with rfl | hx2
    · exact Finset.mem_insert_self _ _
    · cases hx2
  · rw [Finset.sdiff_empty]
    have hcard : (insert (start, 0) (targetsOf edges ×ˢ Finset.Icc (0 : Int) limit)).card ≤
        1 + (targetsOf edges ×ˢ Finset.Icc (0 : Int) limit).card := by
      have := Finset.card_insert_le (start, (0 : Int)) (targetsOf edges ×ˢ Finset.Icc (0 : Int) limit)
      omega
    rw [Finset.card_product, Int.card_Icc, sub_zero] at hcard
    simp only [negPathFuel, List.length_cons, List.length_nil]
    have := Nat.mul_le_mul_left (adjSize edges + 1) hcard
    omega

/-! ## Parity / reachability graph checks

`read_graph` in `fpraas-reach.py`, `fpraas-parity.py` and
`compute-exact-probability-reach.py` produces a vertices dict
`{vertex_name: priority}` and an adjacency dict; these appear below as an
association list `vs : List (String × Nat)` (distinct keys, priorities
parsed from `\d+` hence naturals) and `edges : List (String × List String)`. -/

/-- Python `vertices.get(current, -1)` — a declared priority coerced to
an integer, or `-1` when the vertex is not declared. -/
def priW (vs : List (String × Nat)) (v : String) : Int :=
  match alookup vs v with
  | some p => (p : Int)
  | none => -1

theorem priW_eq_zero_iff (vs : List (String × Nat)) (v : String) :
    priW vs v = 0 ↔ alookup vs v = some 0 := by
  unfold priW
  cases h : alookup vs v with
  | none => simp
  | some p =>
    simp only [Option.some.injEq]
    constructor
    · intro hp
      exact_mod_cast hp
    · intro hp
      simp [hp]

/-- Keys of the parsed vertices dict. -/
def keysOf (vs : List (String × Nat)) : Finset String :=
  (vs.map Prod.fst).toFinset

/-- The `while queue:` loop of `v0_reaches_only_priority0`
(`fpraas-reach.py` lines 77-98 and `compute-exact-probability-reach.py`
lines 69-94), as a fuel-indexed loop.  The queue is a FIFO list (Python
`deque`: `popleft` from the head, `append` at the tail); all successors
are enqueued unconditionally, dedupe happens on pop.  Python adds
`current` to `visited` just before the priority test; since a failing
test returns immediately, folding the insertion into the passing branch
is equivalent. -/
def bfsP0Aux (vs : List (String × Nat)) (edges : List (String × List String)) :
    Nat → Finset String → List String → Option Bool
  | _, _, [] => some true
  | 0, _, _ :: _ => none
  | fuel + 1, visited, current :: rest =>
    if current ∈ visited then bfsP0Aux vs edges fuel visited rest
    else if priW vs current ≠ 0 then some false
    else bfsP0Aux vs edges fuel (insert current visited) (rest ++ adjGet edges current)

/-- Fuel sufficient for `bfsP0Aux` (proved in `bfsP0Aux_ne_none`). -/
def bfsP0Fuel (vs : List (String × Nat)) (edges : List (String × List String)) : Nat :=
  1 + (adjSize edges + 1) * (keysOf vs).card

/-- Embeds `v0_reaches_only_priority0(vertices, edges)`: true iff `v0` is
declared and breadth-first search from `v0` meets only priority-0
vertices.  The `"v0" not in vertices` guard is Python's first branch. -/
def v0_reaches_only_priority0 (vs : List (String × Nat))
    (edges : List (String × List String)) : Bool :=
  if (alookup vs "v0").isSome then
    (bfsP0Aux vs edges (bfsP0Fuel vs edges) ∅ ["v0"]).getD false
  else false

theorem bfsP0Aux_ne_none (vs : List (String × Nat)) (edges : List (String × List String)) :
    ∀ (fuel : Nat) (visited : Finset String) (queue : List String),
    queue.length + (adjSize edges + 1) * ((keysOf vs \ visited).card) ≤ fuel →
    bfsP0Aux vs edges fuel visited queue ≠ none := by
  intro fuel
  induction fuel with
  | zero =>
    intro visited queue h
    cases queue with
    | nil => simp [bfsP0Aux]
    | cons a t => simp only [List.length_cons] at h; omega
  | succ fuel ih =>
    intro visited queue h
    cases queue with
    | nil => simp [bfsP0Aux]
    | cons current rest =>
      simp only [bfsP0Aux]
      by_cases h1 : current ∈ visited
      · rw [if_pos h1]
        apply ih
        simp only [List.length_cons] at h
        omega
      · rw [if_neg h1]
        by_cases h2 : priW vs current ≠ 0
        · rw [if_pos h2]
          simp
        · rw [if_neg h2]
          apply ih
          push_neg at h2
          have hkey : current ∈ keysOf vs := by
            have := (priW_eq_zero_iff vs current).mp h2
            exact List.mem_toFinset.mpr (mem_keys_of_alookup_eq_some this)
          have hin : current ∈ keysOf vs \ visited := Finset.mem_sdiff.mpr ⟨hkey, h1⟩
          have hcard : ((keysOf vs \ insert current visited).card) =
              ((keysOf vs \ visited).card) - 1 := by
            rw [Finset.sdiff_insert, Finset.card_erase_of_mem hin]
          have hpos : 0 < ((keysOf vs \ visited).card) := Finset.card_pos.mpr ⟨_, hin⟩
          have hd : (adjGet edges current).length ≤ adjSize edges :=
            adjGet_length_le_adjSize edges current
          simp only [List.length_cons, List.length_append] at h ⊢
          rw [hcard]
          have hexp : (adjSize edges + 1) * (((keysOf vs \ visited).card) - 1) +
              (adjSize edges + 1) = (adjSize edges + 1) * ((keysOf vs \ visited).card) := by
            have hk : ((keysOf vs \ visited).card) - 1 + 1 = (keysOf vs \ visited).card :=
              Nat.succ_pred_eq_of_pos hpos
            calc (adjSize edges + 1) * (((keysOf vs \ visited).card) - 1) + (adjSize edges + 1) =
                (adjSize edges + 1) * ((((keysOf vs \ visited).card) - 1) + 1) :=
                  (Nat.mul_succ _ _).symm
              _ = (adjSize edges + 1) * ((keysOf vs \ visited).card) := by rw [hk]
          omega

/-- The BFS loop of `v0_reaches_only_priority0` always completes within
its fuel. -/
theorem bfsP0_terminates (vs : List (String × Nat)) (edges : List (String × List String)) :
    bfsP0Aux vs edges (bfsP0Fuel vs edges) ∅ ["v0"] ≠ none := by
  apply bfsP0Aux_ne_none
  rw [Finset.sdiff_empty]
  simp [bfsP0Fuel]

/-! ## Correctness of the priority-0 BFS region check -/

/-- One edge step of the parsed graph: `b` is a successor of `a`. -/
def stepRel (edges : List (String × List String)) (a b : String) : Prop :=
  b ∈ adjGet edges a

/-- Reachability along edges (reflexive-transitive closure of `stepRel`). -/
def ReachableFrom (edges : List (String × List String)) (s u : String) : Prop :=
  Relation.ReflTransGen (stepRel edges) s u

/-- If `visited` is all priority 0 and successor-closed up to a spill
list `Q`, anything reachable from a visited vertex is visited or
reachable from `Q`. -/
theorem reach_escape (edges : List (String × List String)) (visited : Finset String)
    (Q : List String)
    (hcl : ∀ v ∈ visited, ∀ w ∈ adjGet edges v, w ∈ visited ∨ w ∈ Q)
    {s u : String} (h : ReachableFrom edges s u) (hs : s ∈ visited) :
    u ∈ visited ∨ ∃ q ∈ Q, ReachableFrom edges q u := by
  revert hs
  induction h using Relation.ReflTransGen.head_induction_on with
  | refl => intro hu; exact Or.inl hu
  | head h1 hrt ih =>
    intro ha
    rcases hcl _ ha _ h1 with hc | hc
    · exact ih hc
    · exact Or.inr ⟨_, hc, hrt⟩

/-- Loop invariant of the BFS: given enough fuel, the loop answers
`true` exactly when everything reachable from the queue has declared
priority 0. -/
theorem bfsP0Aux_eq_true_iff (vs : List (String × Nat)) (edges : List (String × List String)) :
    ∀ (fuel : Nat) (visited : Finset String) (queue : List String),
    queue.length + (adjSize edges + 1) * ((keysOf vs \ visited).card) ≤ fuel →
    (∀ v ∈ visited, priW vs v = 0) →
    (∀ v ∈ visited, ∀ w ∈ adjGet edges v, w ∈ visited ∨ w ∈ queue) →
    (bfsP0Aux vs edges fuel visited queue = some true ↔
      ∀ u, (∃ q ∈ queue, ReachableFrom edges q u) → priW vs u = 0) := by
  intro fuel
  induction fuel with
  | zero =>
    intro visited queue h _ _
    cases queue with
    | nil => simp [bfsP0Aux]
    | cons a t => simp only [List.length_cons] at h; omega
  | succ fuel ih =>
    intro visited queue h H1 H2
    cases queue with
    | nil => simp [bfsP0Aux]
    | cons current rest =>
      simp only [bfsP0Aux]
      by_cases h1 : current ∈ visited
      · rw [if_pos h1]
        have hcl : ∀ v ∈ visited, ∀ w ∈ adjGet edges v, w ∈ visited ∨ w ∈ rest := by
          intro v hv w hw
          rcases H2 v hv w hw with hw2 | hw2
          · exact Or.inl hw2
          · rcases List.mem_cons.mp hw2 with rfl | hw3
            · exact Or.inl h1
            · exact Or.inr hw3
        rw [ih visited rest (by simp only [List.length_cons] at h; omega) H1 hcl]
        constructor
        · intro hall u ⟨q, hq, hr⟩
          rcases List.mem_cons.mp hq with rfl | hq2
          · rcases reach_escape edges visited rest hcl hr h1 with hu | ⟨q2, hq2, hr2⟩
            · exact H1 u hu
            · exact hall u ⟨q2, hq2, hr2⟩
          · exact hall u ⟨q, hq2, hr⟩
        · intro hall u ⟨q, hq, hr⟩
          exact hall u ⟨q, List.mem_cons_of_mem _ hq, hr⟩
      · rw [if_neg h1]
        by_cases h2 : priW vs current ≠ 0
        · rw [if_pos h2]
          simp only [show (some false = some true) = False by simp]
          constructor
          · intro hf; cases hf
          · intro hall
            exact h2 (hall current ⟨current, List.mem_cons_self _ _, Relation.ReflTransGen.refl⟩)
        · rw [if_neg h2]
          push_neg at h2
          have hkey : current ∈ keysOf vs :=
            List.mem_toFinset.mpr
              (mem_keys_of_alookup_eq_some ((priW_eq_zero_iff vs current).mp h2))
          have hin : current ∈ keysOf vs \ visited := Finset.mem_sdiff.mpr ⟨hkey, h1⟩
          have hcard : ((keysOf vs \ insert current visited).card) =
              ((keysOf vs \ visited).card) - 1 := by
            rw [Finset.sdiff_insert, Finset.card_erase_of_mem hin]
          have hpos : 0 < ((keysOf vs \ visited).card) := Finset.card_pos.mpr ⟨_, hin⟩
          have hd : (adjGet edges current).length ≤ adjSize edges :=
            adjGet_length_le_adjSize edges current
          have hmeas : (rest ++ adjGet edges current).length +
              (adjSize edges + 1) * ((keysOf vs \ insert current visited).card) ≤ fuel := by
            simp only [List.length_cons] at h
            simp only [List.length_append]
            rw [hcard]
            have hexp : (adjSize edges + 1) * (((keysOf vs \ visited).card) - 1) +
                (adjSize edges + 1) = (adjSize edges + 1) * ((keysOf vs \ visited).card) := by
              have hk : ((keysOf vs \ visited).card) - 1 + 1 = (keysOf vs \ visited).card :=
                Nat.succ_pred_eq_of_pos hpos
              calc (adjSize edges + 1) * (((keysOf vs \ visited).card) - 1) +
                  (adjSize edges + 1) =
                  (adjSize edges + 1) * ((((keysOf vs \ visited).card) - 1) + 1) :=
                    (Nat.mul_succ _ _).symm
                _ = (adjSize edges + 1) * ((keysOf vs \ visited).card) := by rw [hk]
            omega
          have H1n : ∀ v ∈ insert current visited, priW vs v = 0 := by
            intro v hv
            rcases Finset.mem_insert.mp hv with rfl | hv2
            · exact h2
            · exact H1 v hv2
          have H2n : ∀ v ∈ insert current visited, ∀ w ∈ adjGet edges v,
              w ∈ insert current visited ∨ w ∈ rest ++ adjGet edges current := by
            intro v hv w hw
            rcases Finset.mem_insert.mp hv with rfl | hv2
            · exact Or.inr (List.mem_append_right _ hw)
            · rcases H2 v hv2 w hw with hw2 | hw2
              · exact Or.inl (Finset.mem_insert_of_mem hw2)
              · rcases List.mem_cons.mp hw2 with rfl | hw3
                · exact Or.inl (Finset.mem_insert_self _ _)
                · exact Or.inr (List.mem_append_left _ hw3)
          rw [ih (insert current visited) (rest ++ adjGet edges current) hmeas H1n H2n]
          constructor
          · intro hall u ⟨q, hq, hr⟩
            rcases List.mem_cons.mp hq with rfl | hq2
            · rcases Relation.ReflTransGen.cases_head hr with rfl | ⟨c, hc, hr2⟩
              · exact h2
              · exact hall u ⟨c, List.mem_append_right _ hc, hr2⟩
            · exact hall u ⟨q, List.mem_append_left _ hq2, hr⟩
          · intro hall u ⟨q, hq, hr⟩
            rcases List.mem_append.mp hq with hq2 | hq2
            · exact hall u ⟨q, List.mem_cons_of_mem _ hq2, hr⟩
            · exact hall u ⟨current, List.mem_cons_self _ _,
                Relation.ReflTransGen.head hq2 hr⟩

/-- The BFS check `v0_reaches_only_priority0` returns `true` iff `v0`
and every vertex reachable from it are declared with priority 0. -/
theorem v0_reaches_only_priority0_iff (vs : List (String × Nat))
    (edges : List (String × List String)) :
    v0_reaches_only_priority0 vs edges = true ↔
      ∀ u, ReachableFrom edges "v0" u → alookup vs u = some 0 := by
  unfold v0_reaches_only_priority0
  by_cases hv : (alookup vs "v0").isSome
  · rw [if_pos hv]
    cases hb : bfsP0Aux vs edges (bfsP0Fuel vs edges) ∅ ["v0"] with
    | none => exact absurd hb (bfsP0_terminates vs edges)
    | some b =>
      have hiff := bfsP0Aux_eq_true_iff vs edges (bfsP0Fuel vs edges) ∅ ["v0"]
        (by rw [Finset.sdiff_empty]; simp [bfsP0Fuel]) (by simp) (by simp)
      rw [hb] at hiff
      simp only [Option.getD_some]
      constructor
      · intro ht u hr
        rw [← priW_eq_zero_iff]
        exact (hiff.mp (by rw [ht])) u ⟨"v0", List.mem_cons_self _ _, hr⟩
      · intro hall
        have := hiff.mpr (by
          intro u ⟨q, hq, hr⟩
          rcases List.mem_cons.mp hq with rfl | hq2
          · rw [priW_eq_zero_iff]
            exact hall u hr
          · cases hq2)
        injection this
  · rw [if_neg hv]
    constructor
    · intro hf; cases hf
    · intro hall
      have := hall "v0" Relation.ReflTransGen.refl
      rw [this] at hv
      simp at hv

/-! ## Path-based lasso searches

`has_full_priority0_lasso` (`fpraas-reach.py` lines 101-126,
`compute-exact-probability-reach.py` lines 96-125) and
`find_lasso_highest_priority` (`fpraas-parity.py` lines 43-70) both
explore paths from `"v0"` with an explicit stack of
`(current, path_from_v0)` frames, where `path` does not yet contain
`current`; a frame is extended only when `current` is not on its path, so
paths stay duplicate-free and termination follows.  Python pushes
`(neighbor, new_path)` for each successor in order, which a left fold of
cons reproduces (last successor ends on top). -/

/-- Python `max(...)` over a nonempty list of naturals. -/
def listMax : List Nat → Nat
  | [] => 0
  | x :: xs => xs.foldl Nat.max x

/-- In `fpraas-parity.py` the priorities dict is accessed as
`vertices[v]` (never with a default), so it is abstracted here as a
total priority map `pri`; the embedding agrees with the Python code
whenever every vertex on the examined cycle is declared. -/
def parityLassoAux (pri : String → Nat) (edges : List (String × List String))
    (parity : Nat) :
    Nat → List (String × List String) → Option Bool
  | _, [] => some false
  | 0, _ :: _ => none
  | fuel + 1, (current, path) :: stack =>
    if current ∈ path then
      if listMax ((path.drop (path.indexOf current) ++ [current]).map pri) % 2 = parity then
        some true
      else parityLassoAux pri edges parity fuel stack
    else
      parityLassoAux pri edges parity fuel
        ((adjGet edges current).foldl (fun st nb => (nb, path ++ [current]) :: st) stack)

/-- Vertex universe of the path searches: the start vertex `"v0"` plus
every edge target. -/
def pathU (edges : List (String × List String)) : Finset String :=
  insert "v0" (targetsOf edges)

/-- Fuel sufficient for both path searches (proved below): the initial
frame's weight in the geometric path measure. -/
def pathSearchFuel (edges : List (String × List String)) : Nat :=
  (1 + adjSize edges) ^ ((pathU edges).card + 1)

/-- Embeds `find_lasso_highest_priority(vertices, edges, parity)`
(`fpraas-parity.py` lines 43-70). -/
def find_lasso_highest_priority (pri : String → Nat)
    (edges : List (String × List String)) (parity : Nat) : Bool :=
  (parityLassoAux pri edges parity (pathSearchFuel edges) [("v0", [])]).getD false

/-- The `while stack:` loop of `has_full_priority0_lasso`. -/
def p0LassoAux (vs : List (String × Nat)) (edges : List (String × List String)) :
    Nat → List (String × List String) → Option Bool
  | _, [] => some false
  | 0, _ :: _ => none
  | fuel + 1, (current, path) :: stack =>
    if priW vs current ≠ 0 then p0LassoAux vs edges fuel stack
    else if current ∈ path then some true
    else p0LassoAux vs edges fuel
      ((adjGet edges current).foldl (fun st nb => (nb, path ++ [current]) :: st) stack)

/-- Embeds `has_full_priority0_lasso(vertices, edges)`
(`fpraas-reach.py` lines 101-126 and
`compute-exact-probability-reach.py` lines 96-125); the initial guard is
Python's `if "v0" not in vertices or vertices["v0"] != 0`. -/
def has_full_priority0_lasso (vs : List (String × Nat))
    (edges : List (String × List String)) : Bool :=
  if alookup vs "v0" = some 0 then
    (p0LassoAux vs edges (pathSearchFuel edges) [("v0", [])]).getD false
  else false

/-- Geometric measure on a path-search stack: a frame with a longer path
weighs geometrically less, so pushing up to `adjSize` successors with an
extended path strictly shrinks the total. -/
def pathMeasure (B cardU : Nat) (stack : List (String × List String)) : Nat :=
  (stack.map fun fr => B ^ (cardU + 1 - fr.2.length)).sum

/-- Well-formed path-search stack: frames carry vertices of `U` and
duplicate-free paths over `U`. -/
def pathStackOK (U : Finset String) (stack : List (String × List String)) : Prop :=
  ∀ fr ∈ stack, fr.1 ∈ U ∧ fr.2.Nodup ∧ ∀ x ∈ fr.2, x ∈ U

theorem pathMeasure_cons (B cardU : Nat) (fr : String × List String)
    (stack : List (String × List String)) :
    pathMeasure B cardU (fr :: stack) =
      B ^ (cardU + 1 - fr.2.length) + pathMeasure B cardU stack := by
  simp [pathMeasure]

theorem pathMeasure_pushFold (B cardU : Nat) (ns : List String) (path2 : List String) :
    ∀ (st : List (String × List String)),
    pathMeasure B cardU (ns.foldl (fun st nb => (nb, path2) :: st) st) =
      ns.length * B ^ (cardU + 1 - path2.length) + pathMeasure B cardU st := by
  induction ns with
  | nil => intro st; simp
  | cons nb rest ih =>
    intro st
    simp only [List.foldl_cons, List.length_cons]
    rw [ih ((nb, path2) :: st), pathMeasure_cons]
    ring

theorem mem_pushFold {γ : Type} (ns : List String) (path2 : γ) :
    ∀ (st : List (String × γ)) (x : String × γ),
    x ∈ ns.foldl (fun st nb => (nb, path2) :: st) st →
    x ∈ st ∨ ∃ nb ∈ ns, x = (nb, path2) := by
  induction ns with
  | nil => intro st x hx; exact Or.inl hx
  | cons nb rest ih =>
    intro st x hx
    rcases ih ((nb, path2) :: st) x hx with hx2 | ⟨nb2, hnb2, rfl⟩
    · rcases List.mem_cons.mp hx2 with rfl | hx3
      · exact Or.inr ⟨nb, List.mem_cons_self _ _, rfl⟩
      · exact Or.inl hx3
    · exact Or.inr ⟨nb2, List.mem_cons_of_mem _ hnb2, rfl⟩

theorem path_length_le_cardU {U : Finset String} {p : List String}
    (hnd : p.Nodup) (hsub : ∀ x ∈ p, x ∈ U) : p.length ≤ U.card := by
  rw [← List.toFinset_card_of_nodup hnd]
  exact Finset.card_le_card fun x hx => hsub x (List.mem_toFinset.mp hx)

/-- The key step inequality: retiring a frame and pushing its at most
`adjSize` successors with a strictly longer path loses at least one unit
of the geometric measure. -/
theorem pathMeasure_step (edges : List (String × List String)) {current : Nat}
    (hd : current ≤ adjSize edges) {cardU plen : Nat} (hlen : plen + 1 ≤ cardU) :
    current * (1 + adjSize edges) ^ (cardU + 1 - (plen + 1)) + 1 ≤
      (1 + adjSize edges) ^ (cardU + 1 - plen) := by
  have he : cardU + 1 - plen = (cardU + 1 - (plen + 1)) + 1 := by omega
  rw [he, pow_succ]
  have hone : 1 ≤ (1 + adjSize edges) ^ (cardU + 1 - (plen + 1)) :=
    Nat.one_le_pow _ _ (by omega)
  have : current * (1 + adjSize edges) ^ (cardU + 1 - (plen + 1)) +
      (1 + adjSize edges) ^ (cardU + 1 - (plen + 1)) =
      (current + 1) * (1 + adjSize edges) ^ (cardU + 1 - (plen + 1)) := by ring
  have hmul : (current + 1) * (1 + adjSize edges) ^ (cardU + 1 - (plen + 1)) ≤
      (1 + adjSize edges) ^ (cardU + 1 - (plen + 1)) * (1 + adjSize edges) := by
    rw [mul_comm ((1 + adjSize edges) ^ (cardU + 1 - (plen + 1))) (1 + adjSize edges)]
    exact Nat.mul_le_mul_right _ (by omega)
  omega

theorem parityLassoAux_ne_none (pri : String → Nat) (edges : List (String × List String))
    (parity : Nat) :
    ∀ (fuel : Nat) (stack : List (String × List String)),
    pathStackOK (pathU edges) stack →
    pathMeasure (1 + adjSize edges) ((pathU edges).card) stack ≤ fuel →
    parityLassoAux pri edges parity fuel stack ≠ none := by
  intro fuel
  induction fuel with
  | zero =>
    intro stack _ h
    cases stack with
    | nil => simp [parityLassoAux]
    | cons fr st =>
      rw [pathMeasure_cons] at h
      have hone : 1 ≤ (1 + adjSize edges) ^ ((pathU edges).card + 1 - fr.2.length) :=
        Nat.one_le_pow _ _ (by omega)
      omega
  | succ fuel ih =>
    intro stack hOK h
    cases stack with
    | nil => simp [parityLassoAux]
    | cons fr st =>
      obtain ⟨current, path⟩ := fr
      simp only [parityLassoAux]
      by_cases h1 : current ∈ path
      · rw [if_pos h1]
        by_cases h2 : listMax ((path.drop (path.indexOf current) ++ [current]).map pri) % 2
            = parity
        · rw [if_pos h2]
          simp
        · rw [if_neg h2]
          apply ih st (fun fr hfr => hOK fr (List.mem_cons_of_mem _ hfr))
          have h2m : (1 + adjSize edges) ^ ((pathU edges).card + 1 - path.length) +
              pathMeasure (1 + adjSize edges) ((pathU edges).card) st ≤ fuel + 1 := by
            rw [pathMeasure_cons] at h
            exact h
          have hone : 1 ≤ (1 + adjSize edges) ^ ((pathU edges).card + 1 - path.length) :=
            Nat.one_le_pow _ _ (by omega)
          omega
      · rw [if_neg h1]
        obtain ⟨hcu, hnd, hsub⟩ := hOK (current, path) (List.mem_cons_self _ _)
        have hnd2 : (path ++ [current]).Nodup :=
          List.Nodup.append hnd (List.nodup_singleton current)
            (fun a ha hb => absurd ((List.mem_singleton.mp hb) ▸ ha) h1)
        have hsub2 : ∀ x ∈ path ++ [current], x ∈ pathU edges := by
          intro x hx
          rcases List.mem_append.mp hx with hx2 | hx2
          · exact hsub x hx2
          · exact (List.mem_singleton.mp hx2) ▸ hcu
        have hOK2 : pathStackOK (pathU edges)
            ((adjGet edges current).foldl (fun st nb => (nb, path ++ [current]) :: st) st) := by
          intro fr hfr
          rcases mem_pushFold _ _ _ fr hfr with hfr2 | ⟨nb, hnb, rfl⟩
          · exact hOK fr (List.mem_cons_of_mem _ hfr2)
          · exact ⟨Finset.mem_insert_of_mem (mem_targetsOf_of_mem_adjGet hnb), hnd2, hsub2⟩
        apply ih _ hOK2
        rw [pathMeasure_pushFold]
        have h2m : (1 + adjSize edges) ^ ((pathU edges).card + 1 - path.length) +
            pathMeasure (1 + adjSize edges) ((pathU edges).card) st ≤ fuel + 1 := by
          rw [pathMeasure_cons] at h
          exact h
        have hlen : path.length + 1 ≤ (pathU edges).card := by
          have := path_length_le_cardU hnd2 hsub2
          simp only [List.length_append, List.length_singleton] at this
          exact this
        have hstep := pathMeasure_step edges (adjGet_length_le_adjSize edges current) hlen
        simp only [List.length_append, List.length_singleton]
        omega

theorem p0LassoAux_ne_none (vs : List (String × Nat)) (edges : List (String × List String)) :
    ∀ (fuel : Nat) (stack : List (String × List String)),
    pathStackOK (pathU edges) stack →
    pathMeasure (1 + adjSize edges) ((pathU edges).card) stack ≤ fuel →
    p0LassoAux vs edges fuel stack ≠ none := by
  intro fuel
  induction fuel with
  | zero =>
    intro stack _ h
    cases stack with
    | nil => simp [p0LassoAux]
    | cons fr st =>
      rw [pathMeasure_cons] at h
      have hone : 1 ≤ (1 + adjSize edges) ^ ((pathU edges).card + 1 - fr.2.length) :=
        Nat.one_le_pow _ _ (by omega)
      omega
  | succ fuel ih =>
    intro stack hOK h
    cases stack with
    | nil => simp [p0LassoAux]
    | cons fr st =>
      obtain ⟨current, path⟩ := fr
      simp only [p0LassoAux]
      by_cases h0 : priW vs current ≠ 0
      · rw [if_pos h0]
        apply ih st (fun fr hfr => hOK fr (List.mem_cons_of_mem _ hfr))
        have h2m : (1 + adjSize edges) ^ ((pathU edges).card + 1 - path.length) +
            pathMeasure (1 + adjSize edges) ((pathU edges).card) st ≤ fuel + 1 := by
          rw [pathMeasure_cons] at h
          exact h
        have hone : 1 ≤ (1 + adjSize edges) ^ ((pathU edges).card + 1 - path.length) :=
          Nat.one_le_pow _ _ (by omega)
        omega
      · rw [if_neg h0]
        by_cases h1 : current ∈ path
        · rw [if_pos h1]
          simp
        · rw [if_neg h1]
          obtain ⟨hcu, hnd, hsub⟩ := hOK (current, path) (List.mem_cons_self _ _)
          have hnd2 : (path ++ [current]).Nodup :=
            List.Nodup.append hnd (List.nodup_singleton current)
              (fun a ha hb => absurd ((List.mem_singleton.mp hb) ▸ ha) h1)
          have hsub2 : ∀ x ∈ path ++ [current], x ∈ pathU edges := by
            intro x hx
            rcases List.mem_append.mp hx with hx2 | hx2
            · exact hsub x hx2
            · exact (List.mem_singleton.mp hx2) ▸ hcu
          have hOK2 : pathStackOK (pathU edges)
              ((adjGet edges current).foldl (fun st nb => (nb, path ++ [current]) :: st) st) := by
            intro fr hfr
            rcases mem_pushFold _ _ _ fr hfr with hfr2 | ⟨nb, hnb, rfl⟩
            · exact hOK fr (List.mem_cons_of_mem _ hfr2)
            · exact ⟨Finset.mem_insert_of_mem (mem_targetsOf_of_mem_adjGet hnb), hnd2, hsub2⟩
          apply ih _ hOK2
          rw [pathMeasure_pushFold]
          have h2m : (1 + adjSize edges) ^ ((pathU edges).card + 1 - path.length) +
              pathMeasure (1 + adjSize edges) ((pathU edges).card) st ≤ fuel + 1 := by
            rw [pathMeasure_cons] at h
            exact h
          have hlen : path.length + 1 ≤ (pathU edges).card := by
            have := path_length_le_cardU hnd2 hsub2
            simp only [List.length_append, List.length_singleton] at this
            exact this
          have hstep := pathMeasure_step edges (adjGet_length_le_adjSize edges current) hlen
          simp only [List.length_append, List.length_singleton]
          omega

/-- The initial frame `("v0", [])` is well-formed and weighs exactly
`pathSearchFuel edges`. -/
theorem initial_pathStack_OK (edges : List (String × List String)) :
    pathStackOK (pathU edges) [("v0", [])] := by
  intro fr hfr
  rcases List.mem_singleton.mp hfr with rfl
  exact ⟨Finset.mem_insert_self _ _, List.nodup_nil, by intro x hx; cases hx⟩

theorem initial_pathMeasure (edges : List (String × List String)) :
    pathMeasure (1 + adjSize edges) ((pathU edges).card) [("v0", [])] =
      pathSearchFuel edges := by
  simp [pathMeasure, pathSearchFuel]

/-- The parity-lasso search always completes within its fuel. -/
theorem find_lasso_highest_priority_terminates (pri : String → Nat)
    (edges : List (String × List String)) (parity : Nat) :
    parityLassoAux pri edges parity (pathSearchFuel edges) [("v0", [])] ≠ none :=
  parityLassoAux_ne_none pri edges parity _ _ (initial_pathStack_OK edges)
    (le_of_eq (initial_pathMeasure edges))

/-- The priority-0-lasso search always completes within its fuel. -/
theorem has_full_priority0_lasso_terminates (vs : List (String × Nat))
    (edges : List (String × List String)) :
    p0LassoAux vs edges (pathSearchFuel edges) [("v0", [])] ≠ none :=
  p0LassoAux_ne_none vs edges _ _ (initial_pathStack_OK edges)
    (le_of_eq (initial_pathMeasure edges))

/-- C8: both feasibility search procedures terminate on every finite
graph.  The nonnegative-energy lasso search finishes within
`energyLassoFuel` iterations because each `(vertex, energy)` state with
energy in `[0, energy_limit]` is pushed at most once; the parity-lasso
search finishes within `pathSearchFuel` iterations because a path is
extended only through vertices not already on it, so every explored path
is duplicate-free over the finite vertex universe.  Fuel `none` (the
loop not finishing) is thereby excluded for the fuel each top-level
check actually uses. -/
theorem claim_C8_searches_terminate :
    (∀ (edges : List (Nat × List Nat)) (weights : List ((Nat × Nat) × Int))
      (start : Nat) (limit : Int),
      energyLassoAux edges weights limit (energyLassoFuel edges limit)
        [(start, [start], 0)] ∅ ≠ none) ∧
    (∀ (pri : String → Nat) (edges : List (String × List String)) (parity : Nat),
      parityLassoAux pri edges parity (pathSearchFuel edges) [("v0", [])] ≠ none) :=
  ⟨find_nonnegative_lasso_terminates, find_lasso_highest_priority_terminates⟩

/-! ## String helpers

Python string operations used by the solver-output parsers, implemented
over the character lists of Lean strings so that concrete runs reduce
well in the kernel.  `pyStrip` is `str.strip()` (ASCII whitespace),
`pyStartsWith` is `str.startswith(p)`, `pySplit` is `str.split(sep)` for
a one-character separator. -/

def stripChars (s : List Char) : List Char :=
  (((s.dropWhile Char.isWhitespace).reverse).dropWhile Char.isWhitespace).reverse

def pyStrip (s : String) : String := ⟨stripChars s.data⟩

def chListPre : List Char → List Char → Bool
  | [], _ => true
  | _ :: _, [] => false
  | p :: ps, c :: cs => p = c && chListPre ps cs

def pyStartsWith (s p : String) : Bool := chListPre p.data s.data

def splitOnChar (sep : Char) : List Char → List (List Char)
  | [] => [[]]
  | c :: rest =>
    let r := splitOnChar sep rest
    if c = sep then [] :: r
    else
      match r with
      | [] => [[c]]
      | h :: t => (c :: h) :: t

def pySplit (s : String) (sep : Char) : List String :=
  (splitOnChar sep s.data).map fun l => ⟨l⟩

/-! ## Solver-output parsers

`parse_solver_csv` appears in three files with the same body except for
the required field count: `fpraas-reach.py` (lines 160-171) demands at
least 3 comma-separated fields, while `fpraas-parity.py` (lines 108-121)
and `compute-exact-probability-reach.py` (lines 153-166) demand at least
5.  `parse_solver_csvK` is that common body with the field count as a
parameter; a line starting with `"v0"` but with too few fields is
skipped and the scan continues. -/

def parse_solver_csvK (k : Nat) : List String → Nat
  | [] => 0
  | line :: rest =>
    if pyStartsWith line ("v0") then
      if k ≤ (pySplit line ',').length then
        if pyStrip ((pySplit line ',').getD 2 ("")) = "0" then 1 else 0
      else parse_solver_csvK k rest
    else parse_solver_csvK k rest

/-- `parse_solver_csv` of `fpraas-reach.py` (≥ 3 fields). -/
def parse_solver_csv3 : List String → Nat := parse_solver_csvK 3

/-- `parse_solver_csv` of `fpraas-parity.py` and
`compute-exact-probability-reach.py` (≥ 5 fields). -/
def parse_solver_csv5 : List String → Nat := parse_solver_csvK 5

/-- Python `line.find("{")` then `line.find("}", start)`: the substring
from the first `{` through the following `}`, inclusive, or `none` when
either brace is missing. -/
def takeToCloseBrace : List Char → Option (List Char)
  | [] => none
  | c :: rest =>
    if c = '\x7d' then some ['\x7d']
    else (takeToCloseBrace rest).map fun t => c :: t

def braceSub : List Char → Option (List Char)
  | [] => none
  | c :: rest =>
    if c = '\x7b' then (takeToCloseBrace rest).map fun mid => '\x7b' :: mid
    else braceSub rest

/-- `parse_solver_output` of `compute-exact-probability-energy.py`
(lines 103-126), `fpraas-energy.py` (lines 46-60) and
`compute-parallel-energy.py` (lines 106-120): scan for a stripped line
starting with `"The winning region is:"`, extract the `{...}` dict
literal, `eval` it, and answer 1 iff the value at key 0 (default `-1`)
is nonnegative.  Python `eval` of the dict literal is abstracted as the
`evalRegion` parameter, returning the dict's pairs or `none` when `eval`
raises (the `except` branch, which yields 0).  A marker line without
both braces falls through and the scan continues, as in the source. -/
def parse_solver_output (evalRegion : String → Option (List (Int × Int))) :
    List String → Nat
  | [] => 0
  | line :: rest =>
    if pyStartsWith (pyStrip line) ("The winning region is:") then
      match braceSub (pyStrip line).data with
      | some region =>
        match evalRegion ⟨region⟩ with
        | some reg => if 0 ≤ (alookup reg 0).getD (-1) then 1 else 0
        | none => 0
      | none => parse_solver_output evalRegion rest
    else parse_solver_output evalRegion rest

/-! ## Energy-game data model and player replacement -/

/-- A node record of the JSON energy game: `{"id": ..., "owner": ...}`
(other JSON fields are irrelevant to every claim and omitted). -/
structure ENode where
  id : Nat
  owner : Nat
deriving DecidableEq

/-- An edge record of the JSON energy game: source, target, and the
optional `effect` field (`e.get("effect", 0)` defaults it to 0). -/
structure EdgeRec where
  source : Nat
  target : Nat
  effect : Option Int
deriving DecidableEq

/-- One iteration of the edge loop of `read_energy_game`:
`edges.setdefault(src, []).append(tgt); weights[(src, tgt)] = effect`. -/
def readEdgeStep (p : List (Nat × List Nat) × List ((Nat × Nat) × Int)) (e : EdgeRec) :
    List (Nat × List Nat) × List ((Nat × Nat) × Int) :=
  (adjApp p.1 e.source e.target, dinsert p.2 (e.source, e.target) (e.effect.getD 0))

/-- Embeds `read_energy_game` (minus the `json.load` layer, whose input
is here already structured), verbatim in
`compute-exact-probability-energy.py` lines 12-26, `fpraas-energy.py`
lines 14-28 and `compute-parallel-energy.py` lines 14-28: build the
`{id: owner}` vertices dict, the adjacency dict via `setdefault`, and
the `{(src, tgt): effect}` weights dict.  No validation is performed. -/
def read_energy_game (nodes : List ENode) (edgeRecs : List EdgeRec) :
    List (Nat × Nat) × List (Nat × List Nat) × List ((Nat × Nat) × Int) :=
  let vertices := nodes.foldl (fun d v => dinsert d v.id v.owner) []
  let ew := edgeRecs.foldl readEdgeStep ([], [])
  (vertices, ew.1, ew.2)

/-- Python `int(bit_string[vid])`; indexing is modelled total via a
default (the drivers only index within range, where this agrees with the
source). -/
def bitVal (bits : List Bool) (i : Nat) : Nat :=
  if bits.getD i false then 1 else 0

/-- The owner-overwriting loop `for v in game_data["nodes"]:
v["owner"] = int(bit_string[v["id"]])`. -/
def withOwners (nodes : List ENode) (bits : List Bool) : List ENode :=
  nodes.map fun v => { v with owner := bitVal bits v.id }

/-- `replace_players_in_json` of `compute-exact-probability-energy.py`
(lines 31-36): mutates the loaded `game_data` in place (no copy) and
writes it out.  Mutation is modelled by returning the post-call value of
the argument as the first component and the written file content as the
second — here both are the overwritten node list. -/
def replace_players_in_json_inplace (g : List ENode) (bits : List Bool) :
    List ENode × List ENode :=
  (withOwners g bits, withOwners g bits)

/-- `replace_players_in_json` of `fpraas-energy.py` (lines 34-40) and
`compute-parallel-energy.py` (lines 34-41): first deep-copies the base
game (`json.loads(json.dumps(base_game))`), then overwrites owners on
the copy only; the base argument is unchanged after the call (first
component), the copy is written out (second component). -/
def replace_players_in_json_copy (base : List ENode) (bits : List Bool) :
    List ENode × List ENode :=
  (base, withOwners base bits)

/-! ## Solver dispatch and batch drivers

The external solver process is abstracted as an oracle from the
materialized instance (for energy games) or the assignment (for
DOT-rewriting reach games) to either its stdout lines or a process
error (`subprocess.CalledProcessError`), carrying the captured output
`e.output` (as lines, empty meaning falsy) and the exception text
`str(e)`. -/

/-- A non-zero solver process exit: captured stdout and exception text. -/
structure SolverErr where
  outLines : List String
  msg : String

/-- `solve_one` of `fpraas-energy.py` (lines 66-82) and
`compute-parallel-energy.py` (lines 126-140): materialize the instance
from the (deep-copied) base, invoke the solver on it, parse; on
`CalledProcessError` return outcome 0 with the error text
`f"Solver error: {e}"`.  Wall-clock timing and tmp-file cleanup are
omitted. -/
def solve_one (evalRegion : String → Option (List (Int × Int)))
    (oracle : List ENode → Except SolverErr (List String))
    (base : List ENode) (bits : List Bool) : List Bool × Nat × List String :=
  match oracle (replace_players_in_json_copy base bits).2 with
  | .ok out => (bits, parse_solver_output evalRegion out, out)
  | .error e => (bits, 0, [("Solver error: ") ++ e.msg])

/-- Running state of an energy batch driver: assignments dispatched so
far, the aggregate, and the in-memory `game_data`. -/
structure EnergyRun where
  dispatched : List (List Bool)
  totalAggregated : Nat
  gamesSolved : Nat
  gameData : List ENode
deriving DecidableEq

/-- One loop iteration of `main` in `compute-exact-probability-energy.py`
(lines 161-191): overwrite the owners of the in-memory `game_data` in
place, write it out, run the solver on it, catch a non-zero exit as
`e.output or f"Solver error: {e}"`, parse, and accumulate. -/
def exactEnergyStep (evalRegion : String → Option (List (Int × Int)))
    (oracle : List ENode → Except SolverErr (List String))
    (r : EnergyRun) (bits : List Bool) : EnergyRun :=
  let g2 := (replace_players_in_json_inplace r.gameData bits).1
  let file := (replace_players_in_json_inplace r.gameData bits).2
  let out :=
    match oracle file with
    | .ok lines => lines
    | .error e => if e.outLines = [] then [("Solver error: ") ++ e.msg] else e.outLines
  { dispatched := r.dispatched ++ [bits]
    totalAggregated := r.totalAggregated + parse_solver_output evalRegion out
    gamesSolved := r.gamesSolved + 1
    gameData := g2 }

/-- `main` of `compute-exact-probability-energy.py` (lines 132-201):
run the two energy feasibility checks, return early (zero trials) unless
both pass, else enumerate all `2 ** n` assignments and solve each. -/
def exactEnergyMain (evalRegion : String → Option (List (Int × Int)))
    (oracle : List ENode → Except SolverErr (List String))
    (nodes : List ENode) (edgeRecs : List EdgeRec) : EnergyRun :=
  let ve := read_energy_game nodes edgeRecs
  let canWin := find_nonnegative_lasso ve.2.1 ve.2.2 0 1000
  let negPath := exists_negative_energy_path ve.2.1 ve.2.2 0 1000
  if !canWin || !negPath then ⟨[], 0, 0, nodes⟩
  else (allBitStrings ve.1.length).foldl (exactEnergyStep evalRegion oracle) ⟨[], 0, 0, nodes⟩

/-- One aggregation step of `main` in `compute-parallel-energy.py`
(lines 181-189): fold one `solve_one` result into the totals; the base
game is only ever passed (read-only) to workers. -/
def parallelEnergyStep (evalRegion : String → Option (List (Int × Int)))
    (oracle : List ENode → Except SolverErr (List String))
    (base : List ENode) (r : EnergyRun) (bits : List Bool) : EnergyRun :=
  let res := solve_one evalRegion oracle base bits
  { dispatched := r.dispatched ++ [bits]
    totalAggregated := r.totalAggregated + res.2.1
    gamesSolved := r.gamesSolved + 1
    gameData := r.gameData }

/-- `main` of `compute-parallel-energy.py` (lines 146-194): same gate as
the exact driver, then one `solve_one` per enumerated assignment.
Worker results arrive unordered in the source (`imap_unordered`); they
are folded here in dispatch order, which leaves every count and sum of
this model unchanged. -/
def parallelEnergyMain (evalRegion : String → Option (List (Int × Int)))
    (oracle : List ENode → Except SolverErr (List String))
    (nodes : List ENode) (edgeRecs : List EdgeRec) : EnergyRun :=
  let ve := read_energy_game nodes edgeRecs
  let canWin := find_nonnegative_lasso ve.2.1 ve.2.2 0 1000
  let negPath := exists_negative_energy_path ve.2.1 ve.2.2 0 1000
  if !canWin || !negPath then ⟨[], 0, 0, nodes⟩
  else (allBitStrings ve.1.length).foldl (parallelEnergyStep evalRegion oracle nodes)
    ⟨[], 0, 0, nodes⟩

/-- Running state of a reach/parity batch driver. -/
structure ReachRun where
  dispatched : List (List Bool)
  totalAggregated : Nat
  gamesSolved : Nat
deriving DecidableEq

/-- `main` of `compute-exact-probability-reach.py` (lines 168-251): run
the two parity feasibility checks, return early (zero trials) if the
priority-0-only region check holds or no full priority-0 lasso exists,
else enumerate all assignments; each trial rewrites the DOT file and
runs the solver (both folded into the oracle), catching a non-zero exit
as the text `f"Solver error: {e}"`, then parses the 5-field CSV. -/
def exactReachStep (oracle : List Bool → Except SolverErr (List String))
    (r : ReachRun) (bits : List Bool) : ReachRun :=
  let out :=
    match oracle bits with
    | .ok lines => lines
    | .error e => [("Solver error: ") ++ e.msg]
  { dispatched := r.dispatched ++ [bits]
    totalAggregated := r.totalAggregated + parse_solver_csv5 out
    gamesSolved := r.gamesSolved + 1 }

def exactReachMain (oracle : List Bool → Except SolverErr (List String))
    (vs : List (String × Nat)) (edges : List (String × List String)) : ReachRun :=
  let p0only := v0_reaches_only_priority0 vs edges
  let lasso := has_full_priority0_lasso vs edges
  if p0only || !lasso then ⟨[], 0, 0⟩
  else (allBitStrings vs.length).foldl (exactReachStep oracle) ⟨[], 0, 0⟩

/-- `main` of `fpraas-reach.py` (lines 177-248): same gate, then `N`
trials, each drawing a fresh random bit string
(`"".join(random.choice("01") for _ in range(n))`, modelled by `gen i`
for trial `i`) — sampling with replacement, no distinctness — and
parsing the 3-field CSV. -/
def fpraasReachStep (oracle : List Bool → Except SolverErr (List String))
    (gen : Nat → List Bool) (r : ReachRun) (i : Nat) : ReachRun :=
  let bits := gen i
  let out :=
    match oracle bits with
    | .ok lines => lines
    | .error e => [("Solver error: ") ++ e.msg]
  { dispatched := r.dispatched ++ [bits]
    totalAggregated := r.totalAggregated + parse_solver_csv3 out
    gamesSolved := r.gamesSolved + 1 }

def fpraasReachMain (oracle : List Bool → Except SolverErr (List String))
    (gen : Nat → List Bool) (N : Nat)
    (vs : List (String × Nat)) (edges : List (String × List String)) : ReachRun :=
  let p0only := v0_reaches_only_priority0 vs edges
  let lasso := has_full_priority0_lasso vs edges
  if p0only || !lasso then ⟨[], 0, 0⟩
  else (List.range N).foldl (fpraasReachStep oracle gen) ⟨[], 0, 0⟩

/-- The distinct-sample loop of `main` in `fpraas-energy.py` (lines
109-112): `while len(bit_strings) < samples: bit_strings.add(random bit
string)`.  `gen t` is the bit string drawn at iteration `t`; the set is
a `Finset`; `none` means the loop was still running when the fuel ran
out (for `samples > 2 ** n` the loop in fact never finishes). -/
def sampleLoop (gen : Nat → List Bool) (k : Nat) :
    Nat → Nat → Finset (List Bool) → Option (Finset (List Bool))
  | 0, _, acc => if acc.card < k then none else some acc
  | fuel + 1, t, acc =>
    if acc.card < k then sampleLoop gen k fuel (t + 1) (insert (gen t) acc)
    else some acc

/-- Folding a step that grows a counter by exactly one per element. -/
theorem foldl_count {σ α : Type} (len : σ → Nat) (f : σ → α → σ)
    (hf : ∀ r b, len (f r b) = len r + 1) :
    ∀ (l : List α) (r : σ), len (l.foldl f r) = len r + l.length := by
  intro l
  induction l with
  | nil => intro r; simp
  | cons a t ih =>
    intro r
    simp only [List.foldl_cons, List.length_cons]
    rw [ih (f r a), hf]
    omega

/-- C2: the batch drivers run zero trials unless the gate holds — the
energy drivers (exact and parallel) dispatch one solver call per
assignment, `2 ^ n` in all, if and only if the nonnegative-lasso check
and the negative-energy-path check both return true, and the
parity/reachability driver does so if and only if the priority-0-only
region check returns false and the full priority-0 lasso check returns
true; when the gate fails the dispatched list is empty. -/
theorem claim_C2_feasibility_gates :
    (∀ (evalRegion : String → Option (List (Int × Int)))
       (oracle : List ENode → Except SolverErr (List String))
       (nodes : List ENode) (edgeRecs : List EdgeRec),
      (exactEnergyMain evalRegion oracle nodes edgeRecs).dispatched.length =
        (if find_nonnegative_lasso (read_energy_game nodes edgeRecs).2.1
              (read_energy_game nodes edgeRecs).2.2 0 1000 = true ∧
            exists_negative_energy_path (read_energy_game nodes edgeRecs).2.1
              (read_energy_game nodes edgeRecs).2.2 0 1000 = true
         then 2 ^ (read_energy_game nodes edgeRecs).1.length else 0)) ∧
    (∀ (evalRegion : String → Option (List (Int × Int)))
       (oracle : List ENode → Except SolverErr (List String))
       (nodes : List ENode) (edgeRecs : List EdgeRec),
      (parallelEnergyMain evalRegion oracle nodes edgeRecs).dispatched.length =
        (if find_nonnegative_lasso (read_energy_game nodes edgeRecs).2.1
              (read_energy_game nodes edgeRecs).2.2 0 1000 = true ∧
            exists_negative_energy_path (read_energy_game nodes edgeRecs).2.1
              (read_energy_game nodes edgeRecs).2.2 0 1000 = true
         then 2 ^ (read_energy_game nodes edgeRecs).1.length else 0)) ∧
    (∀ (oracle : List Bool → Except SolverErr (List String))
       (vs : List (String × Nat)) (edges : List (String × List String)),
      (exactReachMain oracle vs edges).dispatched.length =
        (if v0_reaches_only_priority0 vs edges = false ∧
            has_full_priority0_lasso vs edges = true
         then 2 ^ vs.length else 0)) := by
  refine ⟨?_, ?_, ?_⟩
  · intro evalRegion oracle nodes edgeRecs
    cases hb1 : find_nonnegative_lasso (read_energy_game nodes edgeRecs).2.1
        (read_energy_game nodes edgeRecs).2.2 0 1000 with
    | false => simp [exactEnergyMain, hb1]
    | true =>
      cases hb2 : exists_negative_energy_path (read_energy_game nodes edgeRecs).2.1
          (read_energy_game nodes edgeRecs).2.2 0 1000 with
      | false => simp [exactEnergyMain, hb1, hb2]
      | true =>
        simp only [exactEnergyMain, hb1, hb2, Bool.not_true, Bool.or_self, Bool.false_or,
          if_pos, and_self, if_true]
        rw [if_neg (by simp)]
        rw [foldl_count (fun r => r.dispatched.length) (exactEnergyStep evalRegion oracle)
          (by intro r b; simp [exactEnergyStep])]
        simp [length_allBitStrings]
  · intro evalRegion oracle nodes edgeRecs
    cases hb1 : find_nonnegative_lasso (read_energy_game nodes edgeRecs).2.1
        (read_energy_game nodes edgeRecs).2.2 0 1000 with
    | false => simp [parallelEnergyMain, hb1]
    | true =>
      cases hb2 : exists_negative_energy_path (read_energy_game nodes edgeRecs).2.1
          (read_energy_game nodes edgeRecs).2.2 0 1000 with
      | false => simp [parallelEnergyMain, hb1, hb2]
      | true =>
        simp only [parallelEnergyMain, hb1, hb2, Bool.not_true, Bool.or_self, Bool.false_or,
          if_pos, and_self, if_true]
        rw [if_neg (by simp)]
        rw [foldl_count (fun r => r.dispatched.length)
          (parallelEnergyStep evalRegion oracle nodes)
          (by intro r b; simp [parallelEnergyStep])]
        simp [length_allBitStrings]
  · intro oracle vs edges
    cases hb1 : v0_reaches_only_priority0 vs edges with
    | true => simp [exactReachMain, hb1]
    | false =>
      cases hb2 : has_full_priority0_lasso vs edges with
      | false => simp [exactReachMain, hb1, hb2]
      | true =>
        simp only [exactReachMain, hb1, hb2, Bool.not_true, Bool.or_self, Bool.false_or,
          if_pos, and_self, if_true]
        rw [if_neg (by simp)]
        rw [foldl_count (fun r => r.dispatched.length) (exactReachStep oracle)
          (by intro r b; simp [exactReachStep])]
        simp [length_allBitStrings]

/-- C5: for every parsed parity/reachability graph,
`v0_reaches_only_priority0` returns true if and only if every vertex
reachable from `v0` along edges (including `v0` itself) is declared with
priority 0; in particular, when nothing but `v0` is reachable from `v0`
and `v0` has priority 0, the check returns true and both reach drivers
dispatch zero trials. -/
theorem claim_C5_priority0_region :
    (∀ (vs : List (String × Nat)) (edges : List (String × List String)),
      v0_reaches_only_priority0 vs edges = true ↔
        ∀ u, ReachableFrom edges ("v0") u → alookup vs u = some 0) ∧
    (∀ (vs : List (String × Nat)) (edges : List (String × List String))
       (oracle : List Bool → Except SolverErr (List String))
       (gen : Nat → List Bool) (N : Nat),
      (∀ u, ReachableFrom edges ("v0") u → u = "v0") →
      alookup vs ("v0") = some 0 →
      v0_reaches_only_priority0 vs edges = true ∧
        (exactReachMain oracle vs edges).dispatched = [] ∧
        (fpraasReachMain oracle gen N vs edges).dispatched = []) := by
  refine ⟨v0_reaches_only_priority0_iff, ?_⟩
  intro vs edges oracle gen N honly hv0
  have hcheck : v0_reaches_only_priority0 vs edges = true := by
    rw [v0_reaches_only_priority0_iff]
    intro u hr
    rw [honly u hr]
    exact hv0
  refine ⟨hcheck, ?_, ?_⟩
  · simp [exactReachMain, hcheck]
  · simp [fpraasReachMain, hcheck]

/-- Witness for C5 at a concrete one-vertex graph with no edges. -/
theorem claim_C5_witness :
    v0_reaches_only_priority0 [(("v0"), 0)] [] = true ∧
    (exactReachMain (fun _ => .ok []) [(("v0"), 0)] []).dispatched = [] ∧
    (fpraasReachMain (fun _ => .ok []) (fun _ => []) 3 [(("v0"), 0)] []).dispatched = [] := by
  have honly : ∀ u, ReachableFrom [] ("v0") u → u = "v0" := by
    intro u h
    rcases Relation.ReflTransGen.cases_head h with heq | ⟨c, hc, _⟩
    · exact heq.symm
    · exact absurd hc (by simp [stepRel, adjGet, alookup])
  exact claim_C5_priority0_region.2 [(("v0"), 0)] [] (fun _ => .ok []) (fun _ => []) 3
    honly (by decide)

/-! ## Characterization of the CSV verdict parsers -/

/-- A line the CSV parser acts on: starts with `"v0"` and splits into at
least `k` comma-separated fields. -/
def csvQualifies (k : Nat) (line : String) : Prop :=
  pyStartsWith line ("v0") = true ∧ k ≤ (pySplit line ',').length

/-- Some line qualifies, the earliest qualifying line's third field
strips to `"0"`, and no earlier line qualifies. -/
def csvFirstHit (k : Nat) (lines : List String) : Prop :=
  ∃ pre line post, lines = pre ++ line :: post ∧ csvQualifies k line ∧
    pyStrip ((pySplit line ',').getD 2 ("")) = "0" ∧
    ∀ l2 ∈ pre, ¬csvQualifies k l2

theorem csvFirstHit_cons_of_not_qualifies (k : Nat) (l : String) (rest : List String)
    (hnq : ¬csvQualifies k l) : csvFirstHit k rest ↔ csvFirstHit k (l :: rest) := by
  constructor
  · rintro ⟨pre, line, post, heq, hq, h0, hpre⟩
    refine ⟨l :: pre, line, post, by rw [heq]; rfl, hq, h0, ?_⟩
    intro l2 hl2
    rcases List.mem_cons.mp hl2 with rfl | hl3
    · exact hnq
    · exact hpre l2 hl3
  · rintro ⟨pre, line, post, heq, hq, h0, hpre⟩
    cases pre with
    | nil =>
      injection heq with he1 he2
      exact absurd (he1 ▸ hq) hnq
    | cons p pre2 =>
      injection heq with he1 he2
      subst he1
      exact ⟨pre2, line, post, he2, hq, h0, fun l2 hl2 => hpre l2 (List.mem_cons_of_mem _ hl2)⟩

theorem parse_solver_csvK_spec (k : Nat) :
    ∀ lines : List String,
    (parse_solver_csvK k lines = 0 ∨ parse_solver_csvK k lines = 1) ∧
    (parse_solver_csvK k lines = 1 ↔ csvFirstHit k lines) := by
  intro lines
  induction lines with
  | nil =>
    refine ⟨Or.inl rfl, ?_, ?_⟩
    · intro h
      exact absurd h (by simp [parse_solver_csvK])
    · rintro ⟨pre, line, post, heq, _⟩
      exact absurd heq (by simp)
  | cons l rest ih =>
    by_cases hs : pyStartsWith l ("v0") = true
    · by_cases hk : k ≤ (pySplit l ',').length
      · by_cases h0 : pyStrip ((pySplit l ',').getD 2 ("")) = "0"
        · have hp : parse_solver_csvK k (l :: rest) = 1 := by
            simp only [parse_solver_csvK]
            rw [if_pos hs, if_pos hk, if_pos h0]
          refine ⟨Or.inr hp, ?_, fun _ => hp⟩
          intro _
          exact ⟨[], l, rest, rfl, ⟨hs, hk⟩, h0, by intro l2 h2; cases h2⟩
        · have hp : parse_solver_csvK k (l :: rest) = 0 := by
            simp only [parse_solver_csvK]
            rw [if_pos hs, if_pos hk, if_neg h0]
          refine ⟨Or.inl hp, ?_, ?_⟩
          · intro h1
            rw [hp] at h1
            cases h1
          · rintro ⟨pre, line, post, heq, hq, h02, hpre⟩
            cases pre with
            | nil =>
              injection heq with he1 he2
              exact absurd (he1 ▸ h02) h0
            | cons p pre2 =>
              injection heq with he1 he2
              subst he1
              exact absurd ⟨hs, hk⟩ (hpre l (List.mem_cons_self _ _))
      · have hp : parse_solver_csvK k (l :: rest) = parse_solver_csvK k rest := by
          simp only [parse_solver_csvK]
          rw [if_pos hs, if_neg hk]
        rw [hp]
        refine ⟨ih.1, ?_⟩
        rw [ih.2]
        exact csvFirstHit_cons_of_not_qualifies k l rest (fun hq => hk hq.2)
    · have hp : parse_solver_csvK k (l :: rest) = parse_solver_csvK k rest := by
        simp only [parse_solver_csvK]
        rw [if_neg hs]
      rw [hp]
      refine ⟨ih.1, ?_⟩
      rw [ih.2]
      exact csvFirstHit_cons_of_not_qualifies k l rest (fun hq => hs hq.1)

/-- C10 counterexample: the claim puts the 3-field rule on both
reachability drivers, but on the output line `"v0,1,0"` (three fields,
third field `"0"`) the `fpraas-reach.py` parser answers 1 while the
`compute-exact-probability-reach.py` parser — a reachability driver
requiring at least 5 fields — answers 0. -/
theorem claim_C10_counterexample :
    parse_solver_csv3 [("v0,1,0")] = 1 ∧ parse_solver_csv5 [("v0,1,0")] = 0 := by
  constructor
  · decide
  · decide

/-- C10 amended: each `parse_solver_csv` is total and returns only 0 or
1, and returns 1 exactly when some line begins with `"v0"` and splits
into at least the required number of commas-separated fields — 3 in
`fpraas-reach.py`, but 5 in both `compute-exact-probability-reach.py`
and `fpraas-parity.py` — and the earliest such line's third field,
stripped, equals `"0"`. -/
theorem claim_C10_amended (lines : List String) :
    (parse_solver_csv3 lines = 0 ∨ parse_solver_csv3 lines = 1) ∧
    (parse_solver_csv3 lines = 1 ↔ csvFirstHit 3 lines) ∧
    (parse_solver_csv5 lines = 0 ∨ parse_solver_csv5 lines = 1) ∧
    (parse_solver_csv5 lines = 1 ↔ csvFirstHit 5 lines) :=
  ⟨(parse_solver_csvK_spec 3 lines).1, (parse_solver_csvK_spec 3 lines).2,
    (parse_solver_csvK_spec 5 lines).1, (parse_solver_csvK_spec 5 lines).2⟩

/-! ## The sampling drivers (C3) -/

theorem card_le_two_pow {n : Nat} {acc : Finset (List Bool)}
    (hacc : ∀ x ∈ acc, x.length = n) : acc.card ≤ 2 ^ n := by
  have hsub : acc ⊆ (allBitStrings n).toFinset := fun x hx =>
    List.mem_toFinset.mpr ((mem_allBitStrings_iff n x).mpr (hacc x hx))
  calc acc.card ≤ (allBitStrings n).toFinset.card := Finset.card_le_card hsub
    _ = (allBitStrings n).length := List.toFinset_card_of_nodup (nodup_allBitStrings n)
    _ = 2 ^ n := length_allBitStrings n

theorem sampleLoop_card (gen : Nat → List Bool) (k : Nat) :
    ∀ (fuel t : Nat) (acc s : Finset (List Bool)), acc.card ≤ k →
    sampleLoop gen k fuel t acc = some s → s.card = k := by
  intro fuel
  induction fuel with
  | zero =>
    intro t acc s hle h
    simp only [sampleLoop] at h
    by_cases hc : acc.card < k
    · rw [if_pos hc] at h
      cases h
    · rw [if_neg hc] at h
      injection h with h2
      subst h2
      omega
  | succ fuel ih =>
    intro t acc s hle h
    simp only [sampleLoop] at h
    by_cases hc : acc.card < k
    · rw [if_pos hc] at h
      refine ih (t + 1) _ s ?_ h
      have := Finset.card_insert_le (gen t) acc
      omega
    · rw [if_neg hc] at h
      injection h with h2
      subst h2
      omega

theorem sampleLoop_lengths (gen : Nat → List Bool) (k n : Nat)
    (hg : ∀ t, (gen t).length = n) :
    ∀ (fuel t : Nat) (acc s : Finset (List Bool)), (∀ x ∈ acc, x.length = n) →
    sampleLoop gen k fuel t acc = some s → ∀ x ∈ s, x.length = n := by
  intro fuel
  induction fuel with
  | zero =>
    intro t acc s hacc h
    simp only [sampleLoop] at h
    by_cases hc : acc.card < k
    · rw [if_pos hc] at h
      cases h
    · rw [if_neg hc] at h
      injection h with h2
      subst h2
      exact hacc
  | succ fuel ih =>
    intro t acc s hacc h
    simp only [sampleLoop] at h
    by_cases hc : acc.card < k
    · rw [if_pos hc] at h
      refine ih (t + 1) _ s ?_ h
      intro x hx
      rcases Finset.mem_insert.mp hx with rfl | hx2
      · exact hg t
      · exact hacc x hx2
    · rw [if_neg hc] at h
      injection h with h2
      subst h2
      exact hacc

theorem sampleLoop_diverges (gen : Nat → List Bool) (k n : Nat)
    (hg : ∀ t, (gen t).length = n) (hk : 2 ^ n < k) :
    ∀ (fuel t : Nat) (acc : Finset (List Bool)), (∀ x ∈ acc, x.length = n) →
    sampleLoop gen k fuel t acc = none := by
  intro fuel
  induction fuel with
  | zero =>
    intro t acc hacc
    simp only [sampleLoop]
    rw [if_pos (by have := card_le_two_pow hacc; omega)]
  | succ fuel ih =>
    intro t acc hacc
    simp only [sampleLoop]
    rw [if_pos (by have := card_le_two_pow hacc; omega)]
    refine ih (t + 1) _ ?_
    intro x hx
    rcases Finset.mem_insert.mp hx with rfl | hx2
    · exact hg t
    · exact hacc x hx2

theorem fpraasReach_foldl_dispatched (oracle : List Bool → Except SolverErr (List String))
    (gen : Nat → List Bool) :
    ∀ (l : List Nat) (r : ReachRun),
    ((l.foldl (fpraasReachStep oracle gen) r).dispatched) = r.dispatched ++ l.map gen := by
  intro l
  induction l with
  | nil => intro r; simp
  | cons i t ih =>
    intro r
    simp only [List.foldl_cons, List.map_cons]
    rw [ih]
    simp [fpraasReachStep]

/-- Concrete parity graph that passes the sampling gate: `v0` has
priority 0 with a self-loop (a full priority-0 lasso) and an edge to
`v1` of priority 1 (so the reachable region is not priority-0-only). -/
def vsr : List (String × Nat) := [(("v0"), 0), (("v1"), 1)]

/-- Edges of the concrete gate-passing graph. -/
def edgesr : List (String × List String) := [(("v0"), [("v0"), ("v1")])]

/-- A random source that always draws the same bit string. -/
def genConst : Nat → List Bool := fun _ => [false, false]

/-- A solver oracle that always succeeds with empty output. -/
def orcOk : List Bool → Except SolverErr (List String) := fun _ => .ok []

/-- C3 counterexample: on the two-vertex gate-passing graph (`n = 2`)
with requested sample count `4 ≥ 2 ^ 2`, the `fpraas-reach.py` sampling
driver raises nothing and runs all 4 trials — no `ParameterError` exists
— and the four dispatched assignments are not pairwise distinct (the
driver samples with replacement). -/
theorem claim_C3_counterexample :
    2 ^ 2 ≤ 4 ∧
    (fpraasReachMain orcOk genConst 4 vsr edgesr).gamesSolved = 4 ∧
    ¬(fpraasReachMain orcOk genConst 4 vsr edgesr).dispatched.Nodup := by
  refine ⟨by norm_num, by decide, by decide⟩

/-- C3 amended: the energy sampling driver (`fpraas-energy.py`) draws
distinct bit strings through a retry set — whenever its loop terminates
it holds exactly `k` pairwise-distinct strings of length `n` — but it
has no `ParameterError` guard: for `k > 2 ^ n` the loop never finishes
(every fuel runs out).  The reachability sampling driver
(`fpraas-reach.py`) draws its `k` samples independently with
replacement, never compares `k` against `2 ^ n`, and dispatches exactly
one trial per drawn sample. -/
theorem claim_C3_amended :
    (∀ (gen : Nat → List Bool) (k n : Nat), (∀ t, (gen t).length = n) →
      ∀ (fuel : Nat) (s : Finset (List Bool)),
      sampleLoop gen k fuel 0 ∅ = some s →
      s.card = k ∧ ∀ x ∈ s, x.length = n) ∧
    (∀ (gen : Nat → List Bool) (k n : Nat), (∀ t, (gen t).length = n) → 2 ^ n < k →
      ∀ fuel : Nat, sampleLoop gen k fuel 0 ∅ = none) ∧
    (∀ (oracle : List Bool → Except SolverErr (List String)) (gen : Nat → List Bool)
       (N : Nat) (vs : List (String × Nat)) (edges : List (String × List String)),
      v0_reaches_only_priority0 vs edges = false →
      has_full_priority0_lasso vs edges = true →
      (fpraasReachMain oracle gen N vs edges).dispatched = (List.range N).map gen) := by
  refine ⟨?_, ?_, ?_⟩
  · intro gen k n hg fuel s h
    exact ⟨sampleLoop_card gen k fuel 0 ∅ s (by simp) h,
      sampleLoop_lengths gen k n hg fuel 0 ∅ s (by simp) h⟩
  · intro gen k n hg hk fuel
    exact sampleLoop_diverges gen k n hg hk fuel 0 ∅ (by simp)
  · intro oracle gen N vs edges h1 h2
    simp only [fpraasReachMain, h1, h2, Bool.not_true, Bool.or_self, Bool.false_or]
    rw [if_neg (by simp)]
    rw [fpraasReach_foldl_dispatched]
    rfl

/-- Witness for C3 at concrete inputs: a terminating 1-sample run, a
guaranteed-collision parameterization, and the concrete gate-passing
graph. -/
theorem claim_C3_witness :
    (({[false]} : Finset (List Bool)).card = 1 ∧
      ∀ x ∈ ({[false]} : Finset (List Bool)), x.length = 1) ∧
    sampleLoop (fun _ => []) 2 5 0 ∅ = none ∧
    (fpraasReachMain orcOk genConst 2 vsr edgesr).dispatched =
      (List.range 2).map genConst := by
  refine ⟨?_, ?_, ?_⟩
  · exact claim_C3_amended.1 (fun _ => [false]) 1 1 (fun t => rfl) 2 _ (by decide)
  · exact claim_C3_amended.2.1 (fun _ => []) 2 0 (fun t => rfl) (by norm_num) 5
  · exact claim_C3_amended.2.2 orcOk genConst 2 vsr edgesr (by decide) (by decide)

/-! ## Solver-failure semantics (C6) -/

/-- Folding a step that preserves a projection. -/
theorem foldl_pres {σ α β : Type} (g : σ → β) (f : σ → α → σ)
    (hf : ∀ r b, g (f r b) = g r) :
    ∀ (l : List α) (r : σ), g (l.foldl f r) = g r := by
  intro l
  induction l with
  | nil => intro r; rfl
  | cons a t ih =>
    intro r
    simp only [List.foldl_cons]
    rw [ih (f r a), hf]

/-- The exact energy driver's trial count, like its dispatch count,
depends only on the graph — never on solver outcomes. -/
theorem exactEnergyMain_gamesSolved (evalRegion : String → Option (List (Int × Int)))
    (oracle : List ENode → Except SolverErr (List String))
    (nodes : List ENode) (edgeRecs : List EdgeRec) :
    (exactEnergyMain evalRegion oracle nodes edgeRecs).gamesSolved =
      (if find_nonnegative_lasso (read_energy_game nodes edgeRecs).2.1
            (read_energy_game nodes edgeRecs).2.2 0 1000 = true ∧
          exists_negative_energy_path (read_energy_game nodes edgeRecs).2.1
            (read_energy_game nodes edgeRecs).2.2 0 1000 = true
       then 2 ^ (read_energy_game nodes edgeRecs).1.length else 0) := by
  cases hb1 : find_nonnegative_lasso (read_energy_game nodes edgeRecs).2.1
      (read_energy_game nodes edgeRecs).2.2 0 1000 with
  | false => simp [exactEnergyMain, hb1]
  | true =>
    cases hb2 : exists_negative_energy_path (read_energy_game nodes edgeRecs).2.1
        (read_energy_game nodes edgeRecs).2.2 0 1000 with
    | false => simp [exactEnergyMain, hb1, hb2]
    | true =>
      simp only [exactEnergyMain, hb1, hb2, Bool.not_true, Bool.or_self, and_self, if_true]
      rw [if_neg (by simp)]
      rw [foldl_count (fun r => r.gamesSolved) (exactEnergyStep evalRegion oracle)
        (by intro r b; simp [exactEnergyStep])]
      simp [length_allBitStrings]

/-- C6 amended: in `solve_one` (`fpraas-energy.py`,
`compute-parallel-energy.py`) a non-zero solver exit is unconditionally
recorded as outcome 0 with the error text preserved, and no exception
propagates; the batch trial count of the exact driver is the same for
every oracle, failures included, hence equals that of a clean run.  In
`compute-exact-probability-energy.py`, however, the preserved error text
is re-parsed, which yields 0 whenever that text contains no
winning-region marker line — but when the failing process's captured
output does contain one, its parsed value (possibly 1) is recorded
instead of 0. -/
theorem claim_C6_amended :
    (∀ (evalRegion : String → Option (List (Int × Int)))
       (oracle : List ENode → Except SolverErr (List String))
       (base : List ENode) (bits : List Bool) (e : SolverErr),
      oracle (replace_players_in_json_copy base bits).2 = .error e →
      solve_one evalRegion oracle base bits = (bits, 0, [("Solver error: ") ++ e.msg])) ∧
    (∀ (evalRegion : String → Option (List (Int × Int)))
       (o1 o2 : List ENode → Except SolverErr (List String))
       (nodes : List ENode) (edgeRecs : List EdgeRec),
      (exactEnergyMain evalRegion o1 nodes edgeRecs).gamesSolved =
        (exactEnergyMain evalRegion o2 nodes edgeRecs).gamesSolved) ∧
    (∀ (evalRegion : String → Option (List (Int × Int))) (lines : List String),
      (∀ l ∈ lines, ¬(pyStartsWith (pyStrip l) ("The winning region is:") = true)) →
      parse_solver_output evalRegion lines = 0) := by
  refine ⟨?_, ?_, ?_⟩
  · intro evalRegion oracle base bits e h
    simp [solve_one, h]
  · intro evalRegion o1 o2 nodes edgeRecs
    rw [exactEnergyMain_gamesSolved, exactEnergyMain_gamesSolved]
  · intro evalRegion lines hnl
    induction lines with
    | nil => rfl
    | cons l rest ih =>
      simp only [parse_solver_output]
      rw [if_neg (hnl l (List.mem_cons_self _ _))]
      exact ih fun l2 hl2 => hnl l2 (List.mem_cons_of_mem _ hl2)

/-- The concrete gate-passing energy game used for C6 and C7: a
zero-effect self-loop on `v0` (a nonnegative lasso) plus an effect `-1`
edge to `v1` (a negative-energy path). -/
def g6 : List ENode := [⟨0, 0⟩, ⟨1, 0⟩]

/-- Edge records of the concrete energy game. -/
def e6 : List EdgeRec := [⟨0, 0, some 0⟩, ⟨0, 1, some (-1)⟩]

/-- Concrete stand-in for Python `eval` on the two dict literals the C6
run encounters. -/
def ev6 : String → Option (List (Int × Int)) :=
  fun s => if s = ("\x7b0: 1\x7d") then some [(0, 1)] else none

/-- A solver oracle whose process always exits non-zero after printing a
winning-region line for vertex 0 on stdout (`e.output` captures it). -/
def orcFail : List ENode → Except SolverErr (List String) :=
  fun _ => .error ⟨[("The winning region is: \x7b0: 1\x7d")], ("boom")⟩

/-- A solver oracle for energy instances that always succeeds with empty
output (every trial parses to outcome 0). -/
def orcOkE : List ENode → Except SolverErr (List String) := fun _ => .ok []

/-- C6 counterexample: on the gate-passing game, with every solver
process exiting non-zero but leaving a winning-region line in its
captured output, the exact energy driver records outcome 1 for all four
trials (`total_aggregated = 4`) — not 0 as the claim states. -/
theorem claim_C6_counterexample :
    (exactEnergyMain ev6 orcFail g6 e6).gamesSolved = 4 ∧
    (exactEnergyMain ev6 orcFail g6 e6).totalAggregated = 4 := by
  refine ⟨by decide, by decide⟩

/-- Witness for C6 at concrete inputs. -/
theorem claim_C6_witness :
    solve_one ev6 orcFail g6 [false, false] =
      ([false, false], 0,
        [("Solver error: ") ++ ("boom")]) ∧
    parse_solver_output ev6 [("Solver error: boom")] = 0 ∧
    (exactEnergyMain ev6 orcFail g6 e6).gamesSolved =
      (exactEnergyMain ev6 orcOkE g6 e6).gamesSolved := by
  refine ⟨?_, ?_, ?_⟩
  · exact claim_C6_amended.1 ev6 orcFail g6 [false, false]
      ⟨[("The winning region is: \x7b0: 1\x7d")], ("boom")⟩ rfl
  · exact claim_C6_amended.2.2 ev6 [("Solver error: boom")] (by decide)
  · exact claim_C6_amended.2.1 ev6 orcFail orcOkE g6 e6

/-! ## Player replacement and the base graph (C7) -/

/-- C7 counterexample: on the gate-passing game the exact driver's
in-memory `game_data` after the run differs from the graph at load time
— `replace_players_in_json` of `compute-exact-probability-energy.py`
overwrites the owners of the loaded base game in place (no copy), so
after each trial the owners equal that trial's assignment bits, not
their load-time values. -/
theorem claim_C7_counterexample :
    (exactEnergyMain ev6 orcOkE g6 e6).gamesSolved = 4 ∧
    (exactEnergyMain ev6 orcOkE g6 e6).gameData ≠ g6 := by
  refine ⟨by decide, by decide⟩

/-- C7 amended: the `replace_players_in_json` of `fpraas-energy.py` and
`compute-parallel-energy.py` deep-copies the base game first, so the
in-memory base graph is unchanged after every call and after the whole
parallel batch; the variant in `compute-exact-probability-energy.py`
mutates the loaded game in place, so after a call every node's owner
equals the assignment bit for its id rather than its load-time value. -/
theorem claim_C7_amended :
    (∀ (base : List ENode) (bits : List Bool),
      (replace_players_in_json_copy base bits).1 = base) ∧
    (∀ (evalRegion : String → Option (List (Int × Int)))
       (oracle : List ENode → Except SolverErr (List String))
       (nodes : List ENode) (edgeRecs : List EdgeRec),
      (parallelEnergyMain evalRegion oracle nodes edgeRecs).gameData = nodes) ∧
    (∀ (g : List ENode) (bits : List Bool),
      ∀ v ∈ (replace_players_in_json_inplace g bits).1, v.owner = bitVal bits v.id) := by
  refine ⟨fun base bits => rfl, ?_, ?_⟩
  · intro evalRegion oracle nodes edgeRecs
    unfold parallelEnergyMain
    by_cases hb : (!find_nonnegative_lasso (read_energy_game nodes edgeRecs).2.1
        (read_energy_game nodes edgeRecs).2.2 0 1000 ||
        !exists_negative_energy_path (read_energy_game nodes edgeRecs).2.1
        (read_energy_game nodes edgeRecs).2.2 0 1000) = true
    · rw [if_pos hb]
    · rw [if_neg hb]
      exact foldl_pres (fun r => r.gameData)
        (parallelEnergyStep evalRegion oracle nodes)
        (by intro r b; simp [parallelEnergyStep]) _ _
  · intro g bits v hv
    rcases List.mem_map.mp hv with ⟨v2, _, rfl⟩
    rfl

/-- Witness for C7 at concrete inputs. -/
theorem claim_C7_witness :
    (replace_players_in_json_copy g6 [true, true]).1 = g6 ∧
    (parallelEnergyMain ev6 orcOkE g6 e6).gameData = g6 ∧
    (⟨0, 1⟩ : ENode).owner = bitVal [true, true] 0 := by
  refine ⟨?_, ?_, ?_⟩
  · exact claim_C7_amended.1 g6 [true, true]
  · exact claim_C7_amended.2.1 ev6 orcOkE g6 e6
  · exact claim_C7_amended.2.2 g6 [true, true] ⟨0, 1⟩ (by decide)

/-! ## Loading is validation-free (C9) -/

theorem adjGet_adjApp {α : Type} [DecidableEq α] (d : List (α × List α)) (s t a : α) :
    adjGet (adjApp d s t) a = if a = s then adjGet d a ++ [t] else adjGet d a := by
  induction d with
  | nil =>
    by_cases ha : a = s
    · simp [adjApp, adjGet, alookup, ha]
    · simp [adjApp, adjGet, alookup, ha]
  | cons p rest ih =>
    obtain ⟨k, vs⟩ := p
    simp only [adjApp]
    by_cases hk : k = s
    · subst hk
      by_cases ha : a = k
      · subst ha
        simp [adjGet, alookup]
      · simp [adjGet, alookup, ha]
    · by_cases ha : a = k
      · subst ha
        simp [adjGet, alookup, hk]
      · simp only [if_neg hk]
        have h1 : ∀ (D : List (α × List α)), adjGet ((k, vs) :: D) a = adjGet D a := by
          intro D
          simp [adjGet, alookup, ha]
        rw [h1 (adjApp rest s t), h1 rest, ih]

theorem mem_adjGet_foldl_of_mem {edgeRecs : List EdgeRec} :
    ∀ (p : List (Nat × List Nat) × List ((Nat × Nat) × Int)) (a t : Nat),
    t ∈ adjGet p.1 a → t ∈ adjGet (edgeRecs.foldl readEdgeStep p).1 a := by
  induction edgeRecs with
  | nil => intro p a t h; exact h
  | cons e rest ih =>
    intro p a t h
    simp only [List.foldl_cons]
    refine ih (readEdgeStep p e) a t ?_
    simp only [readEdgeStep, adjGet_adjApp]
    by_cases ha : a = e.source
    · rw [if_pos ha]
      exact List.mem_append_left _ h
    · rw [if_neg ha]
      exact h

theorem mem_adjGet_foldl {edgeRecs : List EdgeRec} :
    ∀ (p : List (Nat × List Nat) × List ((Nat × Nat) × Int)) (e : EdgeRec),
    e ∈ edgeRecs → e.target ∈ adjGet (edgeRecs.foldl readEdgeStep p).1 e.source := by
  induction edgeRecs with
  | nil => intro p e h; cases h
  | cons e0 rest ih =>
    intro p e h
    rcases List.mem_cons.mp h with rfl | h2
    · simp only [List.foldl_cons]
      refine mem_adjGet_foldl_of_mem (readEdgeStep p e) e.source e.target ?_
      simp only [readEdgeStep, adjGet_adjApp, if_pos rfl]
      exact List.mem_append_right _ (List.mem_singleton.mpr rfl)
    · simp only [List.foldl_cons]
      exact ih (readEdgeStep p e0) e h2

/-- The graph description that C9's sources call malformed: a single
declared vertex `0` and an edge referencing the undeclared vertex `5`. -/
def nodes9 : List ENode := [⟨0, 0⟩]

/-- The edge list referencing the missing vertex. -/
def edges9 : List EdgeRec := [⟨0, 5, some (-1)⟩]

/-- C9 counterexample: `read_energy_game` performs no validation — on an
input whose edge references a missing vertex it returns a graph
normally (there is no `MalformedInputError` anywhere in the code), with
the undeclared vertex `5` silently recorded as a successor. -/
theorem claim_C9_counterexample :
    read_energy_game nodes9 edges9 = ([(0, 0)], [(0, [5])], [((0, 5), -1)]) ∧
    5 ∉ ((read_energy_game nodes9 edges9).1.map Prod.fst) := by
  refine ⟨by decide, by decide⟩

/-- C9 amended: loading never fails — neither loader defines or raises a
`MalformedInputError`; `read_energy_game` is total and records every
edge record in the adjacency dict whether or not its endpoints are
declared vertices (the DOT reader likewise silently skips unmatched
lines). -/
theorem claim_C9_amended (nodes : List ENode) (edgeRecs : List EdgeRec) :
    ∀ e ∈ edgeRecs, e.target ∈ adjGet (read_energy_game nodes edgeRecs).2.1 e.source := by
  intro e he
  exact mem_adjGet_foldl ([], []) e he

/-- Witness for C9 at the concrete malformed input. -/
theorem claim_C9_witness :
    5 ∈ adjGet (read_energy_game nodes9 edges9).2.1 0 :=
  claim_C9_amended nodes9 edges9 ⟨0, 5, some (-1)⟩ (by decide)
